import Mathlib

/-!
# Verification of the IFC optimizer's graph-transformation passes

This file gives a shallow embedding of `src/optimizer.py` (the graph
transformation engine of the `ifc_optimizer` repository) and proves, or
refutes, the specification's claims about it.

Modelling conventions, fixed once for the whole file:

* An IFC entity is a record with a stable integer identifier, an exact class
  tag (`is_a()`), the list of its ancestor class tags (the schema's class
  hierarchy, carried on the entity because the storage engine is external),
  and an ordered list of named attribute values, exactly the view that
  `get_info(include_identifier=False, recursive=False)` exposes.
* Python floats are modelled as exact rationals (`ℚ`).  The specification's
  rounding section explicitly permits this ("standard round-half-to-even or
  round-half-away-from-zero — pick one and document; source used
  language-default rounding"): we pick exact round-half-to-even.
* `Model.remove` is modelled from the spec: the storage engine is an external
  collaborator, and §3 of the spec states that a removed entity is dropped
  from the indexes and "must have an empty inverse set (or the removal is a
  correctness violation the engine must avoid causing)".  Removal therefore
  deletes the node and leaves all references from other entities untouched.
* `ifcopenshell.util.element.replace_attribute(inv, old, new)` rewrites every
  attribute slot of `inv` holding `old` (also inside aggregates) to `new`;
  we model it as a per-entity reference rewrite.
* The geometry collaborator `shape.get_volume` is an oracle, a function from
  the entity identifier to a result that is either a raised exception, a
  not-a-number, or an exact value — the spec's `volume(entity) -> float |
  unavailable` interface.
-/

namespace IfcOpt

deriving instance DecidableEq for Except

/-- An attribute value slot of an IFC entity: a reference to another entity
(by identifier), a list of references, a string, a number, a list of numbers,
an enumeration literal, or the null (`None` / `$`) value. -/
inductive Attr where
  | ref (i : Nat)
  | refList (l : List Nat)
  | str (s : String)
  | num (q : ℚ)
  | numList (l : List ℚ)
  | enum (s : String)
  | null
  deriving DecidableEq, Repr

/-- An IFC entity: stable identifier, exact class tag (what `is_a()` returns),
ancestor class tags (schema inheritance, external data), and the ordered named
attribute values (what `get_info` without identifier exposes). -/
structure Entity where
  id : Nat
  type : String
  supers : List String
  attrs : List (String × Attr)
  deriving DecidableEq, Repr

/-- `e.is_a(t)`: exact class or any ancestor class matches. -/
def Entity.isA (e : Entity) (t : String) : Bool :=
  e.type = t || e.supers.contains t

/-- The entity identifiers a single attribute slot refers to. -/
def Attr.refs : Attr → List Nat
  | .ref i => [i]
  | .refList l => l
  | _ => []

/-- All forward references of an entity (the implicit forward index). -/
def Entity.references (e : Entity) : List Nat :=
  (e.attrs.map (fun p => p.2.refs)).flatten

/-- Python truthiness of an attribute value (`if element.Representation`,
`if not pset.HasProperties`): `None`, empty aggregates, empty strings and
zero are falsy. -/
def Attr.pyTruthy : Attr → Bool
  | .ref _ => true
  | .refList l => !l.isEmpty
  | .str s => s ≠ ""
  | .num q => q ≠ 0
  | .numList l => !l.isEmpty
  | .enum s => s ≠ ""
  | .null => false

/-- Named attribute lookup; a missing attribute reads as null. -/
def Entity.attr (e : Entity) (name : String) : Attr :=
  (((e.attrs.find? (fun p => p.1 = name)).map (fun p => p.2)).getD .null)

/-- `pt.Coordinates`: the numeric coordinate list of a point entity. -/
def Entity.Coordinates (e : Entity) : List ℚ :=
  match e.attr "Coordinates" with
  | .numList l => l
  | _ => []

/-- `pset.HasProperties`: the property references of a property set. -/
def Entity.HasProperties (e : Entity) : List Nat :=
  match e.attr "HasProperties" with
  | .refList l => l
  | _ => []

/-- `shp.Items`: the item references of a shape representation. -/
def Entity.Items (e : Entity) : List Nat :=
  match e.attr "Items" with
  | .refList l => l
  | _ => []

/-- Rewrite one attribute slot so that every reference to `old` points to
`new` instead (the slot-level step of `replace_attribute`). -/
def Attr.replaceRef (old new : Nat) : Attr → Attr
  | .ref i => .ref (if i = old then new else i)
  | .refList l => .refList (l.map (fun i => if i = old then new else i))
  | a => a

/-- `replace_attribute(inv, old, new)`: rewrite every attribute slot of the
referencer that points at `old` so it points at `new`. -/
def Entity.replaceRefs (e : Entity) (old new : Nat) : Entity :=
  { e with attrs := e.attrs.map (fun p => (p.1, p.2.replaceRef old new)) }

/-- A model: the full ordered entity set (insertion order, as the storage
engine's `by_type` and iteration expose it). -/
structure Model where
  entities : List Entity
  deriving DecidableEq, Repr

/-- `model.by_type(t)`: the entities of class `t` (subtypes included), in
insertion order.  The storage engine returns a fresh list, so passes iterate
a snapshot. -/
def Model.by_type (m : Model) (t : String) : List Entity :=
  m.entities.filter (fun e => e.isA t)

/-- `model.get_inverse(e)`: the entities that reference `e` directly in any
attribute position. -/
def Model.get_inverse (m : Model) (e : Entity) : List Entity :=
  m.entities.filter (fun r => r.references.contains e.id)

/-- Modelled from the spec: `Model.remove` (the external storage engine's
removal, §3 of the spec) drops the entity and leaves every reference from the
remaining entities untouched — a removed entity "must have an empty inverse
set (or the removal is a correctness violation the engine must avoid
causing)". -/
def Model.remove (m : Model) (e : Entity) : Model :=
  ⟨m.entities.filter (fun x => x.id ≠ e.id)⟩

/-- The in-place mutation `replace_attribute(inv, old, new)` lifted to the
model state: the entity with the referencer's identifier is rewritten. -/
def Model.replaceAttribute (m : Model) (invId old new : Nat) : Model :=
  ⟨m.entities.map (fun e => if e.id = invId then e.replaceRefs old new else e)⟩

/-- The live view of a snapshot object: the current state of the entity with
the same identifier (Python snapshot lists hold live handles whose attribute
reads see the mutated state). -/
def Model.cur (m : Model) (e : Entity) : Entity :=
  ((m.entities.find? (fun x => x.id = e.id)).getD e)

/-- Well-formed model: entity identifiers are unique (the storage engine
assigns them uniquely at creation and never reuses them). -/
def Model.WF (m : Model) : Prop :=
  (m.entities.map Entity.id).Nodup

instance (m : Model) : Decidable m.WF := by
  unfold Model.WF; infer_instance

/-- `for pt in dupes: model.remove(pt)` — remove the recorded duplicates (by
their identifiers) after the iteration. -/
def Model.removeIds (m : Model) (ids : List Nat) : Model :=
  ids.foldl (fun acc i => ⟨acc.entities.filter (fun x => x.id ≠ i)⟩) m

/-- Referential integrity: every reference held by any entity of the model
resolves to an entity present in the model (the spec's central invariant). -/
def Model.DanglingFree (m : Model) : Prop :=
  ∀ e ∈ m.entities, ∀ i ∈ e.references, ∃ e' ∈ m.entities, e'.id = i

instance (m : Model) : Decidable m.DanglingFree := by
  unfold Model.DanglingFree; infer_instance

/-! ## merge_cartesian_points -/

/-- Key lookup in the `seen` association list (a Python dict keyed by the
coordinate tuple; values are the canonical entities, kept by identifier). -/
def lookupKey {κ : Type} [DecidableEq κ] (seen : List (κ × Nat)) (k : κ) : Option Nat :=
  ((seen.find? (fun p => p.1 = k)).map (fun p => p.2))

/-- The `for inv in model.get_inverse(pt): replace_attribute(inv, pt, canon)`
loop: every referencer of `old` is rewritten to point at `new`. -/
def Model.retarget (m : Model) (old new : Nat) : Model :=
  (m.entities.filter (fun r => r.references.contains old)).foldl
    (fun acc inv => acc.replaceAttribute inv.id old new) m

/-- The main loop of `merge_cartesian_points`: iterate the snapshot, key each
point by its exact coordinate tuple, redirect the referencers of an
already-seen point to the first-seen canonical and record it for removal.
Coordinate attributes are never mutated by the pass (`replace_attribute` only
rewrites reference slots), so reading the key from the snapshot object equals
the live read the source performs. -/
def mergeLoop : Model → List (List ℚ × Nat) → List Nat → List Entity →
    Model × List Nat
  | m, _, dupes, [] => (m, dupes)
  | m, seen, dupes, pt :: rest =>
    match lookupKey seen pt.Coordinates with
    | some canonId => mergeLoop (m.retarget pt.id canonId) seen (dupes ++ [pt.id]) rest
    | none => mergeLoop m (seen ++ [(pt.Coordinates, pt.id)]) dupes rest

/-- `merge_cartesian_points(model)`: merge identical `IfcCartesianPoint`
entities; returns the mutated model and the number of points removed. -/
def merge_cartesian_points (m : Model) : Model × Nat :=
  let r := mergeLoop m [] [] (m.by_type "IfcCartesianPoint")
  (r.1.removeIds r.2, r.2.length)

/-! ## model_level_dedupe -/

/-- The structural key of `model_level_dedupe`:
`(inst.is_a(),) + tuple(inst.get_info(include_identifier=False,
recursive=False).values())` — the class tag plus the shallow attribute
values, references compared by entity identity (identifier).  `get_info`
repeats the class tag under its `"type"` key; the duplicate entry is
redundant for equality and omitted here. -/
def structuralKey (e : Entity) : String × List Attr :=
  (e.type, e.attrs.map (fun p => p.2))

/-- The main loop of `model_level_dedupe`: as `mergeLoop`, but the key is the
shallow structural key, read from the live object (`inst.get_info` sees
attribute rewrites made earlier in the same pass). -/
def dedupeLoop : Model → List ((String × List Attr) × Nat) → List Nat →
    List Entity → Model × List Nat
  | m, _, dupes, [] => (m, dupes)
  | m, seen, dupes, inst :: rest =>
    match lookupKey seen (structuralKey (m.cur inst)) with
    | some canonId =>
        dedupeLoop (m.retarget inst.id canonId) seen (dupes ++ [inst.id]) rest
    | none =>
        dedupeLoop m (seen ++ [(structuralKey (m.cur inst), inst.id)]) dupes rest

/-- `model_level_dedupe(model, entity_type)`: merge duplicate instances of
`entity_type`; returns the mutated model and the number removed. -/
def model_level_dedupe (m : Model) (entity_type : String) : Model × Nat :=
  let r := dedupeLoop m [] [] (m.by_type entity_type)
  (r.1.removeIds r.2, r.2.length)

/-- The skeleton of an entity: the fields of an entity that
`merge_cartesian_points` can never change (it only rewrites reference slots
of referencers and removes recorded duplicates): identifier, class tags and
coordinates. -/
structure Skel where
  id : Nat
  type : String
  supers : List String
  coords : List ℚ
  deriving DecidableEq, Repr

/-- Project an entity to its skeleton. -/
def Entity.skel (e : Entity) : Skel :=
  ⟨e.id, e.type, e.supers, e.Coordinates⟩

/-- The `by_type "IfcCartesianPoint"` membership test on skeletons. -/
def Skel.isPoint (s : Skel) : Bool :=
  s.type = "IfcCartesianPoint" || s.supers.contains "IfcCartesianPoint"

/-- The pure content of `mergeLoop`: which snapshot elements land in `dupes`,
computed from the keys alone (the coordinate keys are immutable during the
pass, so the model state is irrelevant to this component). -/
def scanDupesS (seen : List (List ℚ × Nat)) : List Skel → List Nat
  | [] => []
  | s :: rest =>
    match lookupKey seen s.coords with
    | some _ => s.id :: scanDupesS seen rest
    | none => scanDupesS (seen ++ [(s.coords, s.id)]) rest

/-! ## Usage-based pruners, geometric filter, metadata and property passes -/

/-- `remove_metadata(model)`: keeps the first `IfcOwnerHistory` and removes
every later one, with no check of their inverse references. -/
def remove_metadata (m : Model) : Model × Nat :=
  let victims := (m.by_type "IfcOwnerHistory").drop 1
  (victims.foldl (fun acc h => acc.remove h) m, victims.length)

/-- `remove_unused_spaces(model)`: collect the spaces whose every inverse
reference `is_a` `IfcLocalPlacement` or `IfcRelDefinesByProperties`
(`not any(ref for ref in get_inverse if not ref.is_a((...)))`), then remove
them. -/
def remove_unused_spaces (m : Model) : Model × Nat :=
  let unused := (m.by_type "IfcSpace").filter (fun space =>
    (m.get_inverse space).all (fun r =>
      r.isA "IfcLocalPlacement" || r.isA "IfcRelDefinesByProperties"))
  (unused.foldl (fun acc s => acc.remove s) m, unused.length)

/-- `remove_unused_property_sets(model)`: for each property set of the
snapshot, checked against the current state, if its `HasProperties` is empty
(`not pset.HasProperties or len(pset.HasProperties) == 0`) **and** its
inverse set is empty, remove it.  The inner
`for rel in model.get_inverse(pset)` loop runs under the already-established
fact that `get_inverse(pset)` is empty, so it never removes a relation. -/
def rupsStep (acc : Model × Nat) (pset : Entity) : Model × Nat :=
  let mm := acc.1
  let cur := mm.cur pset
  if cur.HasProperties.isEmpty && (mm.get_inverse cur).isEmpty then
    let mm1 := (((mm.get_inverse cur).filter
        (fun rel => rel.isA "IfcRelDefinesByProperties")).foldl
      (fun a rel => a.remove rel) mm)
    (mm1.remove cur, acc.2 + 1)
  else acc

def remove_unused_property_sets (m : Model) : Model × Nat :=
  (m.by_type "IfcPropertySet").foldl rupsStep (m, 0)

/-- Schema sanity for property sets: no `IfcPropertySet` holds a forward
reference to another `IfcPropertySet` (in the IFC schema a set's attributes
are its identity fields, header references and its `IfcProperty` list, none
of which can be a property set). -/
def Model.PsetsNoPsetRefs (m : Model) : Prop :=
  ∀ a ∈ m.entities, a.isA "IfcPropertySet" = true →
    ∀ b ∈ m.entities, a.references.contains b.id = true →
      b.isA "IfcPropertySet" = false

instance (m : Model) : Decidable m.PsetsNoPsetRefs := by
  unfold Model.PsetsNoPsetRefs; infer_instance

/-- `remove_unused_materials(model)`: remove every material whose inverse set
(checked against the current state) is empty. -/
def remove_unused_materials (m : Model) : Model × Nat :=
  (m.by_type "IfcMaterial").foldl
    (fun acc mat =>
      if ((acc.1.get_inverse (acc.1.cur mat)).isEmpty) then
        (acc.1.remove (acc.1.cur mat), acc.2 + 1)
      else acc)
    (m, 0)

/-- `remove_unused_classifications(model)`: remove every classification
reference whose inverse set (checked against the current state) is empty. -/
def remove_unused_classifications (m : Model) : Model × Nat :=
  (m.by_type "IfcClassificationReference").foldl
    (fun acc cls =>
      if ((acc.1.get_inverse (acc.1.cur cls)).isEmpty) then
        (acc.1.remove (acc.1.cur cls), acc.2 + 1)
      else acc)
    (m, 0)

/-- The outcome of the external geometry call `shape.get_volume(element)`:
either the call raises (caught and skipped), or it returns a float, which we
split into not-a-number and an exact value.  The spec's interface is
`volume(entity) -> float | unavailable`. -/
inductive VolRes where
  | raise
  | nan
  | val (q : ℚ)
  deriving DecidableEq, Repr

/-- The Python condition `vol and vol < min_volume`: a raised call was caught
before the test; `nan` is truthy but `nan < x` is false; a value passes when
it is truthy (nonzero) and strictly below the threshold. -/
def volCond : VolRes → ℚ → Bool
  | .raise, _ => false
  | .nan, _ => false
  | .val q, minv => q ≠ 0 && q < minv

/-- `element.Representation` truthiness (`if element.Representation:`). -/
def Entity.hasRepr (e : Entity) : Bool :=
  (e.attr "Representation").pyTruthy

/-- `remove_small_elements(model, min_volume)`: for every `IfcElement` with a
representation, query the volume oracle and remove the element when
`vol and vol < min_volume`; a raised call or a not-a-number result skips the
element.  No inverse-reference check is made before removal. -/
def remove_small_elements (vol : Nat → VolRes) (m : Model) (min_volume : ℚ) :
    Model × Nat :=
  (m.by_type "IfcElement").foldl
    (fun acc el =>
      if el.hasRepr then
        if volCond (vol el.id) min_volume then (acc.1.remove el, acc.2 + 1)
        else acc
      else acc)
    (m, 0)

/-- Python's `str.strip()`: drop whitespace from both ends (structural
re-implementation of `String.trim`, so that concrete instances evaluate). -/
def pyStrip (s : String) : String :=
  ⟨((s.toList.dropWhile Char.isWhitespace).reverse.dropWhile
      Char.isWhitespace).reverse⟩

/-- Character-list prefix test (helper for `strStartsWith`). -/
def listPrefix : List Char → List Char → Bool
  | [], _ => true
  | _ :: _, [] => false
  | a :: as, b :: bs => a == b && listPrefix as bs

/-- Python's `str.startswith(pre)` (equivalently Lean's `String.startsWith`,
re-implemented structurally so that concrete instances evaluate). -/
def strStartsWith (s pre : String) : Bool := listPrefix pre.toList s.toList

/-- The `KEEP_REL` whitelist of `remove_orphaned_entities`. -/
def KEEP_REL : List String :=
  ["IfcRelContainedInSpatialStructure", "IfcRelAggregates", "IfcRelNests",
   "IfcRelDefinesByProperties", "IfcRelDefinesByType", "IfcRelAssigns",
   "IfcRelConnects"]

/-- The skip conditions of `remove_orphaned_entities`: the root project and
ownership records are never deleted, and a relationship whose exact type tag
starts with one of the `KEEP_REL` prefixes is kept regardless of inbound
references. -/
def orphanProtected (e : Entity) : Bool :=
  (e.type = "IfcProject" || e.type = "IfcOwnerHistory")
    || (strStartsWith e.type "IfcRel"
        && KEEP_REL.any (fun k => strStartsWith e.type k))

/-- `remove_orphaned_entities(model)`: collect every entity that is not
protected and has an empty inverse set (both judged against the state before
any removal), then remove them all. -/
def remove_orphaned_entities (m : Model) : Model × Nat :=
  let orphans := m.entities.filter (fun ent =>
    !orphanProtected ent && (m.get_inverse ent).isEmpty)
  (orphans.foldl (fun acc ent => acc.remove ent) m, orphans.length)

/-- `deduplicate_geometry(model)`: merge `IfcShapeRepresentation` entities
keyed by their `Items` tuple (the source keys the dictionary by
`hash(tuple(shp.Items))`; we idealise the hash as injective and key by the
tuple itself), redirecting referencers to the first-seen representative and
removing the duplicate immediately. -/
def deduplicate_geometry (m : Model) : Model × Nat :=
  ((m.by_type "IfcShapeRepresentation").foldl
    (fun acc shp =>
      let mm := acc.1
      let cur := mm.cur shp
      match lookupKey acc.2.1 cur.Items with
      | some canonId =>
        ((mm.retarget cur.id canonId).remove cur, (acc.2.1, acc.2.2 + 1))
      | none => (mm, (acc.2.1 ++ [(cur.Items, cur.id)], acc.2.2)))
    (m, ([], 0))
  ).map id (fun p => p.2)

/-- `spatial.ContainsElements` truthiness: the inverse attribute is the set of
`IfcRelContainedInSpatialStructure` relations whose `RelatingStructure` is
this element. -/
def Model.containsElements (m : Model) (e : Entity) : List Entity :=
  m.entities.filter (fun rel =>
    rel.isA "IfcRelContainedInSpatialStructure"
      && rel.attr "RelatingStructure" == Attr.ref e.id)

/-- `flatten_spatial_structure(model)`: remove every
`IfcSpatialStructureElement` with no contained elements (checked against the
current state). -/
def flatten_spatial_structure (m : Model) : Model × Nat :=
  (m.by_type "IfcSpatialStructureElement").foldl
    (fun acc spatial =>
      if ((acc.1.containsElements (acc.1.cur spatial)).isEmpty) then
        (acc.1.remove (acc.1.cur spatial), acc.2 + 1)
      else acc)
    (m, 0)

/-- The emptiness test of `remove_empty_attributes`:
`value in ("", None, 0, 0.0, "NOTDEFINED")`. -/
def Attr.isEmptyish : Attr → Bool
  | .str s => s = ""
  | .null => true
  | .num q => q = 0
  | .enum s => s = "NOTDEFINED"
  | _ => false

/-- Clear the empty attributes of one entity (`setattr(entity, attr, None)`),
counting each cleared slot. -/
def Entity.clearEmpty (e : Entity) : Entity × Nat :=
  ({ e with attrs := e.attrs.map (fun p =>
      if p.2.isEmptyish then (p.1, Attr.null) else p) },
   (e.attrs.filter (fun p => p.2.isEmptyish)).length)

/-- `remove_empty_attributes(model)`: set every empty/default attribute value
of every entity to null and count the cleared slots. -/
def remove_empty_attributes (m : Model) : Model × Nat :=
  (⟨m.entities.map (fun e => (e.clearEmpty).1)⟩,
   (m.entities.map (fun e => (e.clearEmpty).2)).sum)

/-! ## apply_lossy_rounding (text-level coordinate rounding)

The source operates on the raw IFC text with the regex
`(IFCCARTESIANPOINT)\(\s*([^)]+)\)`: each match's second group is split on
commas, each field is stripped, parsed with Python `float`, rounded with
Python `round` and re-serialised with `str`; fields that fail to parse pass
through (stripped).  We embed the text as the regex decomposition — a list
of chunks, each either plain text or the field list of one point record —
and model floats as exact rationals with round-half-to-even, as the spec
instructs ("pick one and document; source used language-default rounding").
The decimal parser covers plain signed decimal numerals (no exponent form),
and the serialiser prints the exact value in minimal decimal form. -/

/-- Fuel-driven digit printer (structural, so that concrete instances
evaluate): base-10 digits of `n`, most significant first. -/
def natToDigitsAux : Nat → Nat → List Char
  | 0, _ => []
  | fuel + 1, n =>
    if n < 10 then [Nat.digitChar n]
    else natToDigitsAux fuel (n / 10) ++ [Nat.digitChar (n % 10)]

/-- Base-10 digit characters of `n`, most significant first. -/
def natToDigitChars (n : Nat) : List Char := natToDigitsAux (n + 1) n

/-- Numeric value of a digit-character list (most significant first). -/
def digitsVal (cs : List Char) : Nat :=
  cs.foldl (fun a c => 10 * a + (c.toNat - 48)) 0

/-- `str(round(...))` for the exact value `z·10^(-p)`: sign, integer part,
decimal point, fractional part with trailing zeros stripped but at least one
digit (Python floats always print as `d.d`). -/
def serRounded (z : ℤ) (p : ℤ) : String :=
  if p ≤ 0 then
    let n : ℤ := z * (10 : ℤ) ^ (-p).toNat
    (if n < 0 then "-" else "") ++ ⟨natToDigitChars n.natAbs⟩ ++ ".0"
  else
    let P := p.toNat
    let mAbs := z.natAbs
    let ip := mAbs / 10 ^ P
    let ds := natToDigitChars (mAbs % 10 ^ P)
    let frac0 := List.replicate (P - ds.length) '0' ++ ds
    let frac1 := (frac0.reverse.dropWhile (fun c => c = '0')).reverse
    let frac2 := if frac1.isEmpty then ['0'] else frac1
    (if z < 0 then "-" else "") ++ ⟨natToDigitChars ip⟩ ++ "." ++ ⟨frac2⟩

/-- Unsigned decimal numeral parser: digits, optionally followed by a point
and digits; at least one digit in total. -/
def parseUDec (cs : List Char) : Option ℚ :=
  match cs.dropWhile Char.isDigit with
  | [] =>
    if (cs.takeWhile Char.isDigit).isEmpty then none
    else some ((digitsVal (cs.takeWhile Char.isDigit) : ℚ))
  | c :: frac =>
    if c = '.' && frac.all Char.isDigit
        && !((cs.takeWhile Char.isDigit).isEmpty && frac.isEmpty) then
      some ((digitsVal (cs.takeWhile Char.isDigit) : ℚ)
        + (digitsVal frac : ℚ) / 10 ^ frac.length)
    else none

/-- The modelled fragment of Python `float(c)`: an optional sign followed by
a plain decimal numeral (exponent forms and special values are out of the
model; such fields fail to parse and pass through unchanged, which matches
the source's `except ValueError` branch). -/
def parseDec (s : String) : Option ℚ :=
  match s.toList with
  | '-' :: rest => (parseUDec rest).map (fun q => -q)
  | '+' :: rest => parseUDec rest
  | cs => parseUDec cs

/-- Round-half-to-even to an integer (the documented model of Python's
`round`, per the spec's instruction to pick one tie-breaking rule). -/
def rqHalfEven (x : ℚ) : ℤ :=
  if x - (⌊x⌋ : ℚ) < 1/2 then ⌊x⌋
  else if 1/2 < x - (⌊x⌋ : ℚ) then ⌊x⌋ + 1
  else if ⌊x⌋ % 2 = 0 then ⌊x⌋ else ⌊x⌋ + 1

/-- `round(v, p)` as an exact rational. -/
def pyRound (v : ℚ) (p : ℤ) : ℚ :=
  (rqHalfEven (v * 10 ^ p) : ℚ) / 10 ^ p

/-- One field of a point record:
`str(round(float(c), precision))` on success, the stripped field on a parse
failure. -/
def roundField (precision : ℤ) (c : String) : String :=
  match parseDec (pyStrip c) with
  | some v => serRounded (rqHalfEven (v * 10 ^ precision)) precision
  | none => pyStrip c

/-- The regex decomposition of the IFC text: plain text interleaved with the
comma-split field lists of `IFCCARTESIANPOINT(...)` records. -/
inductive Chunk where
  | plain (s : String)
  | point (fields : List String)
  deriving DecidableEq, Repr

/-- `apply_lossy_rounding(raw, precision)`: rewrite every field of every
point record; plain text is untouched. -/
def apply_lossy_rounding (raw : List Chunk) (precision : ℤ) : List Chunk :=
  raw.map (fun ch => match ch with
    | .plain s => .plain s
    | .point fs => .point (fs.map (roundField precision)))

/-- The smallest power `p` with `den ∣ 10 ^ p`, when one exists — that is,
when the denominator has only the prime factors 2 and 5, which holds for
every value of a Python float (doubles are dyadic rationals). -/
def decPow (den : ℕ) : Option ℕ :=
  (List.range (den + 1)).find? (fun p => 10 ^ p % den = 0)

/-- Python `str` of a float value, the value being carried as its exact
decimal rational (the same modelling convention as the rounding pass, where
the spec sanctions the exact-decimal fragment): minimal decimal `d.d`
notation via `serRounded`.  A rational whose denominator is not of the form
`2^a * 5^b` is the value of no Python float; on that dead fragment the
printer rounds to 17 places. -/
def serFloat (q : ℚ) : String :=
  match decPow q.den with
  | some p => serRounded (q.num * ((10 ^ p : ℤ) / (q.den : ℤ))) (p : ℤ)
  | none => serRounded (rqHalfEven (q * 10 ^ (17 : ℤ))) 17

/-- `str(prop.NominalValue.wrappedValue)` (source line 408).  Only a wrapped
simple value (string, enumeration, number) has a `wrappedValue` attribute:
an unset `NominalValue` — the slot is schema-optional, so the attribute
value is `None` — raises `AttributeError`, as does an entity reference or an
aggregate.  The raise propagates out of the pass uncaught. -/
def Attr.wrappedStr : Attr → Except Unit String
  | .str s => .ok s
  | .enum s => .ok s
  | .num q => .ok (serFloat q)
  | .null => .error ()
  | .ref _ => .error ()
  | .refList _ => .error ()
  | .numList _ => .error ()

/-- The per-property placeholder test (source lines 407–408):
`prop.is_a("IfcPropertySingleValue") and
str(prop.NominalValue.wrappedValue).strip() == placeholder`.  Python's
`and` short-circuits, so a non-single-value property is kept without its
`NominalValue` ever being read; on a single-value property whose
`NominalValue` is unset the test raises instead of answering. -/
def Model.propCheck (m : Model) (placeholder : String) (i : Nat) :
    Except Unit Bool :=
  match m.entities.find? (fun x => x.id = i) with
  | some prop =>
    if prop.isA "IfcPropertySingleValue" then
      match (prop.attr "NominalValue").wrappedStr with
      | .ok s => .ok (pyStrip s = placeholder)
      | .error e => .error e
    else .ok false
  | none => .ok false

/-- The boolean value of a successful placeholder test (also `false` on the
raising inputs, which the correctness statements exclude through the pass's
success hypothesis). -/
def Model.propMatches (m : Model) (placeholder : String) (i : Nat) : Bool :=
  match m.propCheck placeholder i with
  | .ok b => b
  | .error _ => false

/-- Rewrite the `HasProperties` attribute slot of one entity (the in-place
`pset.HasProperties = props_to_keep`). -/
def Entity.setHP (e : Entity) (l : List Nat) : Entity :=
  { e with attrs := e.attrs.map (fun p =>
      if p.1 = "HasProperties" then (p.1, Attr.refList l) else p) }

/-- Rewrite the `HasProperties` attribute of the entity with identifier
`psetId`. -/
def Model.setHasProperties (m : Model) (psetId : Nat) (l : List Nat) : Model :=
  ⟨m.entities.map (fun e => if e.id = psetId then e.setHP l else e)⟩

/-- The inner property loop of `remove_placeholder_properties` (source
lines 406–412): walk `pset.HasProperties` left to right, counting the
placeholder matches and collecting `props_to_keep`; the first raising
placeholder test aborts the pass. -/
def splitProps (mm : Model) (ph : String) :
    List Nat → Except Unit (Nat × List Nat)
  | [] => .ok (0, [])
  | i :: rest =>
    match mm.propCheck ph i with
    | .error e => .error e
    | .ok true =>
      match splitProps mm ph rest with
      | .error e => .error e
      | .ok (d, keep) => .ok (d + 1, keep)
    | .ok false =>
      match splitProps mm ph rest with
      | .error e => .error e
      | .ok (d, keep) => .ok (d, i :: keep)

/-- Phase 1 of `remove_placeholder_properties`: walk the property-set
snapshot, split each set's property list into placeholder matches (counted)
and survivors, reassign the shortened list when it is non-empty, and record
the set for removal when it is empty.  A raising placeholder test
propagates out (the loop has no handler). -/
def placeholderPhase1 (placeholder : String) :
    Model × Nat × List Nat → List Entity → Except Unit (Model × Nat × List Nat)
  | acc, [] => .ok acc
  | (mm, deleted, empties), pset :: rest =>
    let cur := mm.cur pset
    match splitProps mm placeholder cur.HasProperties with
    | .error e => .error e
    | .ok (d, kept) =>
      if kept.isEmpty then
        placeholderPhase1 placeholder
          (mm, deleted + d, empties ++ [cur.id]) rest
      else
        placeholderPhase1 placeholder
          (mm.setHasProperties cur.id kept, deleted + d, empties) rest

/-- The value phase 1 computes when no placeholder test raises (the pure
helper the correctness lemmas are stated over; `phase1_ok` is the bridge). -/
def phase1Pure (placeholder : String) :
    Model × Nat × List Nat → List Entity → Model × Nat × List Nat
  | acc, [] => acc
  | (mm, deleted, empties), pset :: rest =>
    let cur := mm.cur pset
    let matched := cur.HasProperties.filter (fun i => mm.propMatches placeholder i)
    let kept := cur.HasProperties.filter (fun i => !mm.propMatches placeholder i)
    if kept.isEmpty then
      phase1Pure placeholder
        (mm, deleted + matched.length, empties ++ [cur.id]) rest
    else
      phase1Pure placeholder
        (mm.setHasProperties cur.id kept, deleted + matched.length, empties) rest

/-- Phase 2 of `remove_placeholder_properties`: for each now-empty property
set, remove its inbound `IfcRelDefinesByProperties` relations (taken from the
current inverse index), then the set itself. -/
def placeholderPhase2 : Model → List Nat → Model
  | mm, [] => mm
  | mm, i :: rest =>
    placeholderPhase2
      (match mm.entities.find? (fun x => x.id = i) with
       | some pset =>
         (((mm.get_inverse pset).filter
             (fun rel => rel.isA "IfcRelDefinesByProperties")).foldl
           (fun a rel => a.remove rel) mm).remove pset
       | none => mm)
      rest

/-- The property references a set keeps after the placeholder pass
(`props_to_keep`), computed against a fixed model. -/
def keptL (m : Model) (ph : String) (ps : Entity) : List Nat :=
  ps.HasProperties.filter (fun i => !m.propMatches ph i)

/-- How many placeholder properties a set loses, computed against a fixed
model. -/
def matchedLen (m : Model) (ph : String) (ps : Entity) : Nat :=
  (ps.HasProperties.filter (fun i => m.propMatches ph i)).length

/-- The net effect of phase 1 on a single entity: a property set that keeps a
non-empty property list has its `HasProperties` replaced by the kept list;
every other entity is untouched. -/
def updHP (m : Model) (ph : String) (e : Entity) : Entity :=
  if e.isA "IfcPropertySet" && !(keptL m ph e).isEmpty then
    e.setHP (keptL m ph e)
  else e

/-- Partial phase-1 effect: only the entities whose identifier is in `done`
have been rewritten so far. -/
def updIf (m : Model) (ph : String) (done : List Nat) (e : Entity) : Entity :=
  if done.contains e.id then updHP m ph e else e

/-- Schema sanity: no entity is both an `IfcPropertySet` and an
`IfcRelDefinesByProperties` (in IFC the two class families are disjoint). -/
def Model.PsetRelDisjoint (m : Model) : Prop :=
  ∀ e ∈ m.entities, ¬(e.isA "IfcPropertySet" = true
      ∧ e.isA "IfcRelDefinesByProperties" = true)

instance (m : Model) : Decidable m.PsetRelDisjoint := by
  unfold Model.PsetRelDisjoint; infer_instance

/-- `remove_placeholder_properties(model, placeholder)`: delete the
single-value properties whose nominal value equals the placeholder; a set
left (or found) with no properties is removed together with its defining
relations.  Returns the number of properties deleted — unless a placeholder
test raises, in which case the pass aborts without removing anything or
returning a count. -/
def remove_placeholder_properties (m : Model) (placeholder : String) :
    Except Unit (Model × Nat) :=
  match placeholderPhase1 placeholder (m, 0, []) (m.by_type "IfcPropertySet") with
  | .error e => .error e
  | .ok r => .ok (placeholderPhase2 r.1 r.2.2, r.2.1)

/-- A property set with one placeholder single-value property and one
complex (non single-value) property. -/
def exMixedPset : Entity :=
  ⟨1, "IfcPropertySet", [], [("Name", .str "M"), ("HasProperties", .refList [10, 11])]⟩

/-- A property set whose two single-value properties are both placeholders. -/
def exAllDashPset : Entity :=
  ⟨4, "IfcPropertySet", [], [("Name", .str "A"), ("HasProperties", .refList [12, 13])]⟩

/-- A property set whose property list is empty from the start. -/
def exBarePset : Entity :=
  ⟨6, "IfcPropertySet", [], [("Name", .str "B"), ("HasProperties", .refList [])]⟩

/-- The defining relation of the mixed set. -/
def exRelMixed : Entity :=
  ⟨2, "IfcRelDefinesByProperties", [],
    [("RelatingPropertyDefinition", .ref 1), ("RelatedObjects", .refList [3])]⟩

/-- The defining relation of the all-placeholder set. -/
def exRelDash : Entity :=
  ⟨5, "IfcRelDefinesByProperties", [],
    [("RelatingPropertyDefinition", .ref 4), ("RelatedObjects", .refList [3])]⟩

/-- The defining relation of the bare set. -/
def exRelBare : Entity :=
  ⟨7, "IfcRelDefinesByProperties", [],
    [("RelatingPropertyDefinition", .ref 6), ("RelatedObjects", .refList [3])]⟩

/-- A model exercising `remove_placeholder_properties`: a mixed set (one
placeholder single-value property, one complex property), an
all-placeholder set, a born-empty set, their defining relations, their
properties and a wall. -/
def dashModel : Model :=
  ⟨[exMixedPset, exRelMixed,
    ⟨3, "IfcWallStandardCase", ["IfcWall", "IfcElement"], [("Name", .str "W")]⟩,
    exAllDashPset, exRelDash, exBarePset, exRelBare,
    ⟨10, "IfcPropertySingleValue", [], [("Name", .str "p10"), ("NominalValue", .str " - ")]⟩,
    ⟨11, "IfcComplexProperty", [], [("Name", .str "p11"), ("HasProperties", .refList [])]⟩,
    ⟨12, "IfcPropertySingleValue", [], [("Name", .str "p12"), ("NominalValue", .str "-")]⟩,
    ⟨13, "IfcPropertySingleValue", [], [("Name", .str "p13"), ("NominalValue", .str "-")]⟩]⟩

/-- A single-value property whose schema-optional `NominalValue` is unset:
reading `NominalValue.wrappedValue` on it raises. -/
def exNullProp : Entity :=
  ⟨21, "IfcPropertySingleValue", [], [("Name", .str "p21"), ("NominalValue", Attr.null)]⟩

/-- The property set holding the unset-value property. -/
def exNullPset : Entity :=
  ⟨20, "IfcPropertySet", [], [("Name", .str "N"), ("HasProperties", .refList [21])]⟩

/-- A model on which the placeholder pass raises: the unset-value set is
walked before the born-empty set (`exBarePset`), so the pass aborts and the
born-empty set and its relation are never removed. -/
def poisonModel : Model := ⟨[exNullPset, exNullProp, exBarePset, exRelBare]⟩

/-- The graph `remove_placeholder_properties dashModel "-"` returns: the
mixed set keeps `[11]`, the all-placeholder and born-empty sets and their
relations are gone, and the detached property entities remain. -/
def dashOut : Model :=
  ⟨[⟨1, "IfcPropertySet", [], [("Name", .str "M"), ("HasProperties", .refList [11])]⟩,
    exRelMixed,
    ⟨3, "IfcWallStandardCase", ["IfcWall", "IfcElement"], [("Name", .str "W")]⟩,
    ⟨10, "IfcPropertySingleValue", [], [("Name", .str "p10"), ("NominalValue", .str " - ")]⟩,
    ⟨11, "IfcComplexProperty", [], [("Name", .str "p11"), ("HasProperties", .refList [])]⟩,
    ⟨12, "IfcPropertySingleValue", [], [("Name", .str "p12"), ("NominalValue", .str "-")]⟩,
    ⟨13, "IfcPropertySingleValue", [], [("Name", .str "p13"), ("NominalValue", .str "-")]⟩]⟩

/-! ## The optimise pipeline (`optimize_ifc`, source lines 111–210)

`optimize_ifc` mixes the pure graph passes with external collaborators:
`ifcpatch` schema migration, file reads and writes, `ifcopenshell.open`,
`model.write` and gzip compression.  The externals are oracles collected in
an `Ext` record (modelled from the spec's pipeline boundary: each either
succeeds or raises with a message `str(e)`); the filesystem is the ordered
list of files the invocation touches, an IFC text file being its regex
decomposition into chunks and the written output being the serialised final
graph.  Python's insertion-ordered `stats` dict is an association list in
insertion order; the options dict is a record with one field per recognised
key, a missing key being the falsy default ("every key optional, absence
means disabled"). -/

/-- The `options` dictionary of `optimize_ifc`. -/
structure Options where
  convert_schema : Bool := false
  target_schema : String := ""
  lossy_rounding : Option ℤ := none
  merge_cartesian : Bool := false
  dedupe_property_sets : Bool := false
  dedupe_classifications : Bool := false
  remove_dash_props : Bool := false
  remove_unused_spaces : Bool := false
  remove_metadata : Bool := false
  remove_empty_attributes : Bool := false
  remove_unused_property_sets : Bool := false
  remove_unused_materials : Bool := false
  remove_unused_classifications : Bool := false
  remove_small_elements : Option ℚ := none
  remove_orphaned_entities : Bool := false
  deduplicate_geometry : Bool := false
  flatten_spatial_structure : Bool := false
  ifczip_compress : Bool := false
  deriving Repr, DecidableEq

/-- The `stats` dictionary: stat keys and counts in insertion order. -/
abbrev Stats := List (String × Nat)

/-- The external, effectful collaborators of the pipeline, as oracles
(modelled from the spec's boundary description): `ifcpatch` migration
produces the converted file's text, `ifcopenshell.open` parses text into an
entity graph, `model.write` serialises the graph (`writeOk` reports success
or the raised message), `write_ifczip` gzips the written file, and `vol` is
the geometry collaborator of `remove_small_elements`. -/
structure Ext where
  convert : List Chunk → String → Except String (List Chunk)
  load : List Chunk → Except String Model
  writeOk : Model → Except String Unit
  zipWrite : Except String Unit
  vol : Nat → VolRes

/-- A file on disk: IFC text, a serialised entity graph, or a gzip
container holding the named file. -/
inductive FileData where
  | text (content : List Chunk)
  | graph (m : Model)
  | zipped (of : String)
  deriving Repr, DecidableEq

/-- The files the invocation touches, in creation order. -/
structure FState where
  files : List (String × FileData)
  deriving Repr, DecidableEq

/-- Writing a file. -/
def FState.create (fs : FState) (path : String) (d : FileData) : FState :=
  ⟨fs.files ++ [(path, d)]⟩

/-- `os.remove(path)`. -/
def FState.removeFile (fs : FState) (path : String) : FState :=
  ⟨fs.files.filter (fun pr => pr.1 ≠ path)⟩

/-- One entry of the pass-dispatch chain (source lines 162–190): if the
flag is set, run the pass on the current model and append its count under
its stat key. -/
def passStep (flag : Bool) (key : String) (pass : Model → Model × Nat)
    (acc : Model × Stats) : Model × Stats :=
  if flag then
    let r := pass acc.1
    (r.1, acc.2 ++ [(key, r.2)])
  else acc

/-- Step 4 of `optimize_ifc` (source lines 161–190): the model-level passes
in source order.  `remove_small_elements` is keyed on presence
(`"remove_small_elements" in options`), all other passes on truthiness
(`options.get(...)`).  The placeholder pass can raise (an unset
`NominalValue`); no pass has a handler, so the exception propagates to the
`optimize_ifc` boundary — its message is abstracted to the exception's
class name. -/
def runPasses (opts : Options) (vol : Nat → VolRes) (m : Model) :
    Except String (Model × Stats) :=
  let acc := (m, ([] : Stats))
  let acc := passStep opts.merge_cartesian "merged_points"
    merge_cartesian_points acc
  let acc := passStep opts.dedupe_property_sets "dup_psets"
    (fun mm => model_level_dedupe mm "IfcPropertySet") acc
  let acc := passStep opts.dedupe_classifications "dup_class"
    (fun mm => model_level_dedupe mm "IfcClassificationReference") acc
  let dash : Except String (Model × Stats) :=
    if opts.remove_dash_props then
      match remove_placeholder_properties acc.1 "-" with
      | .error _ => .error "AttributeError"
      | .ok r => .ok (r.1, acc.2 ++ [("dash_props", r.2)])
    else .ok acc
  match dash with
  | .error e => .error e
  | .ok acc =>
    let acc := passStep opts.remove_unused_spaces "spaces"
      remove_unused_spaces acc
    let acc := passStep opts.remove_metadata "metadata" remove_metadata acc
    let acc := passStep opts.remove_empty_attributes "empty_attrs"
      remove_empty_attributes acc
    let acc := passStep opts.remove_unused_property_sets "psets_unused"
      remove_unused_property_sets acc
    let acc := passStep opts.remove_unused_materials "materials_unused"
      remove_unused_materials acc
    let acc := passStep opts.remove_unused_classifications "class_unused"
      remove_unused_classifications acc
    let acc := match opts.remove_small_elements with
      | some minv =>
        let r := remove_small_elements vol acc.1 minv
        (r.1, acc.2 ++ [("small_elems", r.2)])
      | none => acc
    let acc := passStep opts.remove_orphaned_entities "orphans"
      remove_orphaned_entities acc
    let acc := passStep opts.deduplicate_geometry "dup_geo"
      deduplicate_geometry acc
    let acc := passStep opts.flatten_spatial_structure "spatial"
      flatten_spatial_structure acc
    .ok acc

/-- The stat keys of the enabled operations, in dispatch order (the keys of
the `stats` dict the source builds). -/
def enabledStatKeys (opts : Options) : List String :=
  (if opts.merge_cartesian then ["merged_points"] else [])
  ++ (if opts.dedupe_property_sets then ["dup_psets"] else [])
  ++ (if opts.dedupe_classifications then ["dup_class"] else [])
  ++ (if opts.remove_dash_props then ["dash_props"] else [])
  ++ (if opts.remove_unused_spaces then ["spaces"] else [])
  ++ (if opts.remove_metadata then ["metadata"] else [])
  ++ (if opts.remove_empty_attributes then ["empty_attrs"] else [])
  ++ (if opts.remove_unused_property_sets then ["psets_unused"] else [])
  ++ (if opts.remove_unused_materials then ["materials_unused"] else [])
  ++ (if opts.remove_unused_classifications then ["class_unused"] else [])
  ++ (match opts.remove_small_elements with
      | some _ => ["small_elems"]
      | none => [])
  ++ (if opts.remove_orphaned_entities then ["orphans"] else [])
  ++ (if opts.deduplicate_geometry then ["dup_geo"] else [])
  ++ (if opts.flatten_spatial_structure then ["spatial"] else [])

/-- The body of `optimize_ifc`'s `try:` block (source lines 137–206):
schema conversion, lossy rounding, load, passes, write, compression,
temp-file cleanup.  An exception carries its message and the filesystem at
the moment it was raised; the `tmp_files` list lives only inside the
invocation and its cleanup loop (lines 198–199) sits on the success path
only, after the write. -/
def optimizeBody (opts : Options) (ext : Ext)
    (input_path output_path : String) (input : List Chunk) (fs : FState) :
    Except (String × FState) (Stats × FState) :=
  let conv : Except String (List Chunk × String × List String × FState) :=
    if opts.convert_schema then
      match ext.convert input opts.target_schema with
      | .error e => .error e
      | .ok c =>
        .ok (c, input_path ++ ".conv.ifc", [input_path ++ ".conv.ifc"],
          fs.create (input_path ++ ".conv.ifc") (.text c))
    else .ok (input, input_path, [], fs)
  match conv with
  | .error e => .error (e, fs)
  | .ok (input1, path1, tmps1, fs1) =>
    let (input2, tmps2, fs2) :=
      match opts.lossy_rounding with
      | some prec =>
        (apply_lossy_rounding input1 prec,
         tmps1 ++ [path1 ++ ".round.ifc"],
         fs1.create (path1 ++ ".round.ifc")
           (.text (apply_lossy_rounding input1 prec)))
      | none => (input1, tmps1, fs1)
    match ext.load input2 with
    | .error e => .error (e, fs2)
    | .ok model =>
      match runPasses opts ext.vol model with
      | .error e => .error (e, fs2)
      | .ok (model2, stats) =>
        match ext.writeOk model2 with
        | .error e => .error (e, fs2)
        | .ok _ =>
          let fs3 := fs2.create output_path (.graph model2)
          match (if opts.ifczip_compress then ext.zipWrite else .ok ()) with
          | .error e => .error (e, fs3)
          | .ok _ =>
            let fs4 := if opts.ifczip_compress then
                fs3.create (output_path ++ ".ifczip") (.zipped output_path)
              else fs3
            .ok (stats, tmps2.foldl (fun acc t => acc.removeFile t) fs4)

/-- `optimize_ifc(input_path, output_path, options)` (source lines
111–210): run the body; any exception is re-raised as the single uniform
report of line 210. -/
def optimize_ifc (opts : Options) (ext : Ext)
    (input_path output_path : String) (input : List Chunk) (fs : FState) :
    Except String Stats × FState :=
  match optimizeBody opts ext input_path output_path input fs with
  | .ok (stats, fs') => (.ok stats, fs')
  | .error (e, fs') => (.error ("Optimization failed: " ++ e), fs')

/-- `optimize(..., options=None)` / an options dict with no keys. -/
def noOptions : Options := {}

/-- `{"lossy_rounding": 0}` and nothing else. -/
def lossyOnlyOpts : Options := { lossy_rounding := some 0 }

/-- `{"remove_metadata": True}` and nothing else. -/
def metadataOnlyOpts : Options := { remove_metadata := true }

/-- An external world whose `ifcopenshell.open` raises (a malformed IFC
file, say); the other collaborators are immaterial. -/
def failExt : Ext :=
  ⟨fun c _ => .ok c, fun _ => .error "open failed", fun _ => .ok (),
   .ok (), fun _ => VolRes.raise⟩

/-- An external world in which loading yields the graph `m` and every
collaborator succeeds. -/
def loadExt (m : Model) : Ext :=
  ⟨fun c _ => .ok c, fun _ => .ok m, fun _ => .ok (), .ok (),
   fun _ => VolRes.raise⟩

/-- Two owner-history records. -/
def ownerA : Entity := ⟨1, "IfcOwnerHistory", [], []⟩

/-- The second owner-history record, kept only while `wallC` references
it. -/
def ownerB : Entity := ⟨2, "IfcOwnerHistory", [], []⟩

/-- A wall whose `OwnerHistory` attribute references entity 2. -/
def wallC : Entity := ⟨3, "IfcWall", [], [("OwnerHistory", Attr.ref 2)]⟩

/-- A referentially intact model: every reference (the wall's pointer to
owner-history 2) resolves. -/
def metaModel : Model := ⟨[ownerA, ownerB, wallC]⟩

/-! ### Concrete example models

`IfcClassificationReference` entities may reference other entities of the same
class through their `ReferencedSource` attribute, so the structural key of one
instance can change when a duplicate it references is merged away.  The model
below exhibits this: `exA`/`exB` are equal except that they reference the two
structurally equal sources `exP1`/`exP2`. -/

def exA : Entity :=
  ⟨1, "IfcClassificationReference", [],
    [("Identification", .str "X"), ("Name", .str "N"), ("ReferencedSource", .ref 3)]⟩

def exB : Entity :=
  ⟨2, "IfcClassificationReference", [],
    [("Identification", .str "X"), ("Name", .str "N"), ("ReferencedSource", .ref 4)]⟩

def exP1 : Entity :=
  ⟨3, "IfcClassificationReference", [],
    [("Identification", .str "Y"), ("ReferencedSource", .null)]⟩

def exP2 : Entity :=
  ⟨4, "IfcClassificationReference", [],
    [("Identification", .str "Y"), ("ReferencedSource", .null)]⟩

/-- Four classification references: two duplicates and their two distinct
referencers. -/
def dedupeModel : Model := ⟨[exA, exB, exP1, exP2]⟩

/-- A wall element with a geometric representation. -/
def exWall : Entity :=
  ⟨1, "IfcWall", ["IfcElement"], [("Representation", .ref 2)]⟩

/-- A model holding the wall and its representation record. -/
def smallModel : Model :=
  ⟨[exWall, ⟨2, "IfcProductDefinitionShape", [], []⟩]⟩

/-- A protected-kind relationship with zero inbound references. -/
def exAgg : Entity := ⟨1, "IfcRelAggregates", [], []⟩

/-- A model holding only the unreferenced protected relationship. -/
def orphanModel : Model := ⟨[exAgg]⟩

/-- An empty, unreferenced property set. -/
def exEmptyPset : Entity :=
  ⟨1, "IfcPropertySet", [], [("Name", .str "P"), ("HasProperties", .refList [])]⟩

/-- A model with an empty unreferenced property set, a non-empty one and its
property. -/
def rupsModel : Model :=
  ⟨[exEmptyPset,
    ⟨2, "IfcPropertySet", [], [("Name", .str "Q"), ("HasProperties", .refList [3])]⟩,
    ⟨3, "IfcPropertySingleValue", [], [("NominalValue", .str "v")]⟩]⟩

end IfcOpt

/-! ## Theorems -/

namespace IfcOpt

theorem find?_fst_map (f : Attr → Attr) (l : List (String × Attr)) (name : String) :
    (l.map (fun p => (p.1, f p.2))).find? (fun p => p.1 = name)
      = (l.find? (fun p => p.1 = name)).map (fun p => (p.1, f p.2)) := by
  induction l with
  | nil => rfl
  | cons h t ih =>
    by_cases hc : h.1 = name <;> simp [List.find?_cons, hc, ih]

theorem attr_replaceRefs (e : Entity) (o n : Nat) (name : String) :
    (e.replaceRefs o n).attr name = (e.attr name).replaceRef o n := by
  unfold Entity.attr Entity.replaceRefs
  simp only [find?_fst_map]
  cases e.attrs.find? (fun p => p.1 = name) with
  | none => rfl
  | some p => rfl

theorem Coordinates_replaceRefs (e : Entity) (o n : Nat) :
    (e.replaceRefs o n).Coordinates = e.Coordinates := by
  unfold Entity.Coordinates
  rw [attr_replaceRefs]
  cases e.attr "Coordinates" <;> rfl

theorem skel_replaceRefs (e : Entity) (o n : Nat) :
    (e.replaceRefs o n).skel = e.skel := by
  unfold Entity.skel
  rw [Coordinates_replaceRefs]
  rfl

theorem map_skel_replaceAttribute (m : Model) (i o n : Nat) :
    (m.replaceAttribute i o n).entities.map Entity.skel
      = m.entities.map Entity.skel := by
  unfold Model.replaceAttribute
  simp only [List.map_map]
  apply List.map_congr_left
  intro e _
  by_cases he : e.id = i <;> simp [Function.comp, he, skel_replaceRefs]

theorem map_skel_retarget (m : Model) (o n : Nat) :
    (m.retarget o n).entities.map Entity.skel = m.entities.map Entity.skel := by
  unfold Model.retarget
  generalize m.entities.filter (fun r => r.references.contains o) = l
  induction l generalizing m with
  | nil => rfl
  | cons h t ih =>
    simp only [List.foldl_cons]
    rw [ih, map_skel_replaceAttribute]

theorem mergeLoop_map_skel (l : List Entity) :
    ∀ m seen dupes, ((mergeLoop m seen dupes l).1).entities.map Entity.skel
      = m.entities.map Entity.skel := by
  induction l with
  | nil => intro m seen dupes; rfl
  | cons pt rest ih =>
    intro m seen dupes
    simp only [mergeLoop]
    cases h : lookupKey seen pt.Coordinates with
    | some c => simp only [h, ih, map_skel_retarget]
    | none => simp only [h, ih]

theorem mergeLoop_dupes (l : List Entity) :
    ∀ m seen dupes, (mergeLoop m seen dupes l).2
      = dupes ++ scanDupesS seen (l.map Entity.skel) := by
  induction l with
  | nil => intro m seen dupes; simp [mergeLoop, scanDupesS]
  | cons pt rest ih =>
    intro m seen dupes
    simp only [mergeLoop, List.map_cons, scanDupesS]
    cases h : lookupKey seen pt.Coordinates with
    | some c =>
      simp [show (Entity.skel pt).coords = pt.Coordinates from rfl,
        show (Entity.skel pt).id = pt.id from rfl, h, ih, List.append_assoc]
    | none =>
      simp [show (Entity.skel pt).coords = pt.Coordinates from rfl,
        show (Entity.skel pt).id = pt.id from rfl, h, ih]

theorem removeIds_entities (ids : List Nat) : ∀ m : Model,
    (m.removeIds ids).entities
      = m.entities.filter (fun x => !ids.contains x.id) := by
  induction ids with
  | nil => intro m; simp [Model.removeIds]
  | cons i rest ih =>
    intro m
    have h1 : Model.removeIds m (i :: rest)
        = Model.removeIds ⟨m.entities.filter (fun x => x.id ≠ i)⟩ rest := rfl
    rw [h1, ih, List.filter_filter]
    apply List.filter_congr
    intro x _
    by_cases hx : x.id = i <;> simp [hx]

theorem by_type_point_map_skel (m : Model) :
    (m.by_type "IfcCartesianPoint").map Entity.skel
      = (m.entities.map Entity.skel).filter Skel.isPoint := by
  unfold Model.by_type
  rw [List.filter_map]
  rfl

theorem lookupKey_append {κ : Type} [DecidableEq κ] (a b : List (κ × Nat)) (k : κ) :
    lookupKey (a ++ b) k
      = match lookupKey a k with
        | some v => some v
        | none => lookupKey b k := by
  induction a with
  | nil => simp [lookupKey]
  | cons h t ih =>
    by_cases hc : h.1 = k <;> simp [lookupKey, List.find?_cons, hc] <;>
      simpa [lookupKey] using ih

theorem scan_survivors (l : List Skel) : ∀ seen,
    (∀ s ∈ l.filter (fun s => !(scanDupesS seen l).contains s.id),
        lookupKey seen s.coords = none)
    ∧ (l.filter (fun s => !(scanDupesS seen l).contains s.id)).Pairwise
        (fun a b => a.coords ≠ b.coords) := by
  induction l with
  | nil => intro seen; exact ⟨fun s hs => absurd hs (by simp), by simp⟩
  | cons h rest ih =>
    intro seen
    cases hk : lookupKey seen h.coords with
    | some c =>
      -- the head is recorded as a duplicate and filtered out; the remaining
      -- survivors are a sublist of the tail's survivors
      have hscan : scanDupesS seen (h :: rest)
          = h.id :: scanDupesS seen rest := by simp [scanDupesS, hk]
      have hsub : List.Sublist
          ((h :: rest).filter
            (fun s => !(scanDupesS seen (h :: rest)).contains s.id))
          (rest.filter (fun s => !(scanDupesS seen rest).contains s.id)) := by
        rw [hscan, List.filter_cons]
        have hhead : (!(h.id :: scanDupesS seen rest).contains h.id) = false := by
          simp [List.contains_cons]
        rw [hhead, if_neg Bool.false_ne_true]
        apply List.monotone_filter_right
        intro s hs
        simp only [List.contains_cons, Bool.not_or, Bool.and_eq_true] at hs
        exact hs.2
      exact ⟨fun s hs => (ih seen).1 s (hsub.subset hs), (ih seen).2.sublist hsub⟩
    | none =>
      have hscan : scanDupesS seen (h :: rest)
          = scanDupesS (seen ++ [(h.coords, h.id)]) rest := by
        simp [scanDupesS, hk]
      obtain ⟨ihc, ihp⟩ := ih (seen ++ [(h.coords, h.id)])
      have hnotin : ∀ s ∈ rest.filter
          (fun s => !(scanDupesS (seen ++ [(h.coords, h.id)]) rest).contains s.id),
          lookupKey seen s.coords = none ∧ h.coords ≠ s.coords := by
        intro s hs
        have := ihc s hs
        rw [lookupKey_append] at this
        cases hls : lookupKey seen s.coords with
        | some v => rw [hls] at this; exact absurd this (by simp)
        | none =>
          rw [hls] at this
          refine ⟨rfl, fun hcs => ?_⟩
          simp [lookupKey, List.find?_cons, hcs] at this
      rw [hscan, List.filter_cons]
      by_cases hhid : !(scanDupesS (seen ++ [(h.coords, h.id)]) rest).contains h.id
      · simp only [hhid, if_pos rfl]
        refine ⟨?_, ?_⟩
        · intro s hs
          rcases List.mem_cons.mp hs with rfl | hs'
          · exact hk
          · exact (hnotin s hs').1
        · exact List.Pairwise.cons (fun s hs => (hnotin s hs).2) ihp
      · simp only [Bool.not_eq_true] at hhid
        simp only [hhid, if_neg (by simp : ¬((false : Bool) = true))]
        exact ⟨fun s hs => (hnotin s hs).1, ihp⟩

theorem scanDupesS_eq_nil (l : List Skel) : ∀ seen,
    (∀ s ∈ l, lookupKey seen s.coords = none) →
    l.Pairwise (fun a b => a.coords ≠ b.coords) →
    scanDupesS seen l = [] := by
  induction l with
  | nil => intro seen _ _; rfl
  | cons h rest ih =>
    intro seen hcond hpw
    have hk : lookupKey seen h.coords = none := hcond h (by simp)
    simp only [scanDupesS, hk]
    apply ih
    · intro s hs
      rw [lookupKey_append, hcond s (by simp [hs])]
      have hne : h.coords ≠ s.coords := (List.pairwise_cons.mp hpw).1 s hs
      simp [lookupKey, List.find?_cons, hne]
    · exact (List.pairwise_cons.mp hpw).2

/-- **C3** (amended).  Running `merge_cartesian_points` twice in a row on the
same graph removes zero points the second time: after the first pass the
surviving `IfcCartesianPoint` entities have pairwise distinct coordinate
tuples (the pass never rewrites coordinate attributes), so the second
invocation records no duplicate and returns 0.  (The analogous statement for
`model_level_dedupe` is false; see the counterexample.) -/
theorem merge_cartesian_points_idempotent (m : Model) :
    (merge_cartesian_points (merge_cartesian_points m).1).2 = 0 := by
  unfold merge_cartesian_points
  set K1 := (m.by_type "IfcCartesianPoint").map Entity.skel with hK1
  set D := scanDupesS [] K1 with hD
  have hdup1 : (mergeLoop m [] [] (m.by_type "IfcCartesianPoint")).2 = D := by
    rw [mergeLoop_dupes]; simp [hD, hK1]
  have hm1 : ((mergeLoop m [] [] (m.by_type "IfcCartesianPoint")).1.removeIds
        (mergeLoop m [] [] (m.by_type "IfcCartesianPoint")).2).entities.map Entity.skel
      = (m.entities.map Entity.skel).filter (fun s => !D.contains s.id) := by
    rw [removeIds_entities, hdup1]
    rw [show (fun x : Entity => !D.contains x.id)
        = (fun s : Skel => !D.contains s.id) ∘ Entity.skel from rfl]
    rw [← List.filter_map, mergeLoop_map_skel]
  have hsnap2 : (((mergeLoop m [] [] (m.by_type "IfcCartesianPoint")).1.removeIds
        (mergeLoop m [] [] (m.by_type "IfcCartesianPoint")).2).by_type
          "IfcCartesianPoint").map Entity.skel
      = K1.filter (fun s => !D.contains s.id) := by
    rw [by_type_point_map_skel, hm1, List.filter_comm, hK1, by_type_point_map_skel]
  have hpw := (scan_survivors K1 []).2
  have hnil : scanDupesS []
      ((((mergeLoop m [] [] (m.by_type "IfcCartesianPoint")).1.removeIds
        (mergeLoop m [] [] (m.by_type "IfcCartesianPoint")).2).by_type
          "IfcCartesianPoint").map Entity.skel) = [] := by
    rw [hsnap2]
    exact scanDupesS_eq_nil _ [] (fun s _ => rfl) (by rw [← hD] at hpw; exact hpw)
  simp only [mergeLoop_dupes, List.nil_append] at hnil ⊢
  rw [hnil]
  rfl

theorem remove_entities (m : Model) (e : Entity) :
    (m.remove e).entities = m.entities.filter (fun x => x.id ≠ e.id) := rfl

theorem foldl_remove_eq_removeIds (victims : List Entity) : ∀ m : Model,
    victims.foldl (fun acc e => acc.remove e) m
      = m.removeIds (victims.map Entity.id) := by
  induction victims with
  | nil => intro m; rfl
  | cons v rest ih =>
    intro m
    simp only [List.foldl_cons, List.map_cons]
    exact ih (m.remove v)

theorem id_inj_of_WF (m : Model) (hwf : m.WF) {a b : Entity}
    (ha : a ∈ m.entities) (hb : b ∈ m.entities) (hid : a.id = b.id) : a = b :=
  List.inj_on_of_nodup_map hwf ha hb hid

theorem remove_orphaned_entities_entities (m : Model) :
    (remove_orphaned_entities m).1.entities
      = m.entities.filter (fun x =>
          !((m.entities.filter (fun ent => !orphanProtected ent
              && (m.get_inverse ent).isEmpty)).map Entity.id).contains x.id) := by
  unfold remove_orphaned_entities
  dsimp only
  rw [foldl_remove_eq_removeIds, removeIds_entities]

/-- **C7**.  Orphan pruning is conservative: an entity that is a relationship
of one of the protected kinds (the `KEEP_REL` prefixes), or the root project
record, or an ownership-history record, or that has at least one inbound
reference, is still present — as the very same unmodified entity — after
`remove_orphaned_entities` (the pass rewrites no attribute). -/
theorem remove_orphaned_entities_conservative (m : Model) (hwf : m.WF)
    (e : Entity) (he : e ∈ m.entities)
    (hp : (strStartsWith e.type "IfcRel" = true
            ∧ KEEP_REL.any (fun k => strStartsWith e.type k) = true)
        ∨ (e.type = "IfcProject" ∨ e.type = "IfcOwnerHistory")
        ∨ m.get_inverse e ≠ []) :
    e ∈ (remove_orphaned_entities m).1.entities := by
  rw [remove_orphaned_entities_entities]
  refine List.mem_filter.mpr ⟨he, ?_⟩
  simp only [Bool.not_eq_true']
  by_contra hcon
  rw [Bool.not_eq_false] at hcon
  obtain ⟨v, hv, hvid⟩ := List.mem_map.mp (List.mem_of_elem_eq_true hcon)
  obtain ⟨hvm, hvp⟩ := List.mem_filter.mp hv
  have hve : v = e := id_inj_of_WF m hwf hvm he hvid
  rw [hve] at hvp
  simp only [Bool.and_eq_true, Bool.not_eq_true'] at hvp
  rcases hp with ⟨h1, h2⟩ | h | h
  · unfold orphanProtected at hvp
    rw [h1, h2] at hvp
    simp at hvp
  · unfold orphanProtected at hvp
    rcases h with h | h <;> rw [h] at hvp <;> simp at hvp
  · exact h (List.isEmpty_iff.mp hvp.2)

/-- Remaining-entities characterisation of `remove_small_elements`: the loop
removes exactly the snapshot elements that carry a representation and satisfy
the volume condition, and the per-element decision never depends on the
evolving model state. -/
theorem remove_small_elements_eq (vol : Nat → VolRes) (minv : ℚ)
    (l : List Entity) : ∀ (mm : Model) (k : Nat),
    l.foldl (fun acc el =>
        if el.hasRepr then
          if volCond (vol el.id) minv then (acc.1.remove el, acc.2 + 1)
          else acc
        else acc) (mm, k)
      = ((l.filter (fun el => el.hasRepr && volCond (vol el.id) minv)).foldl
          (fun acc e => acc.remove e) mm,
         k + (l.filter (fun el => el.hasRepr && volCond (vol el.id) minv)).length) := by
  induction l with
  | nil => intro mm k; simp
  | cons h t ih =>
    intro mm k
    by_cases h1 : h.hasRepr = true
    · by_cases h2 : volCond (vol h.id) minv = true
      · rw [List.foldl_cons, if_pos h1, if_pos h2, ih,
          List.filter_cons, if_pos (by rw [h1, h2]; rfl), List.foldl_cons]
        simp only [Prod.mk.injEq, List.length_cons]
        exact ⟨trivial, by omega⟩
      · rw [List.foldl_cons, if_pos h1, if_neg h2, ih,
          List.filter_cons, if_neg (by rw [h1]; simpa using h2)]
    · rw [List.foldl_cons, if_neg h1, ih,
        List.filter_cons, if_neg (by simp [h1])]

theorem remove_small_elements_entities (vol : Nat → VolRes) (m : Model)
    (minv : ℚ) :
    (remove_small_elements vol m minv).1.entities
      = m.entities.filter (fun x =>
          !(((m.by_type "IfcElement").filter
              (fun el => el.hasRepr && volCond (vol el.id) minv)).map
                Entity.id).contains x.id) := by
  unfold remove_small_elements
  rw [remove_small_elements_eq, foldl_remove_eq_removeIds, removeIds_entities]

/-- Surviving the filter that implements a batch of removals is the same as
not being one of the (model-member) victims, in a well-formed model. -/
theorem survives_removal_iff (m : Model) (hwf : m.WF) (victims : List Entity)
    (hsub : ∀ v ∈ victims, v ∈ m.entities) (e : Entity) (he : e ∈ m.entities) :
    e ∈ m.entities.filter (fun x => !(victims.map Entity.id).contains x.id)
      ↔ e ∉ victims := by
  rw [List.mem_filter]
  have hiff : ((victims.map Entity.id).contains e.id = true)
      ↔ e.id ∈ victims.map Entity.id := List.elem_iff
  constructor
  · rintro ⟨-, hc⟩ hev
    rw [Bool.not_eq_true'] at hc
    have ht : (victims.map Entity.id).contains e.id = true :=
      hiff.mpr (List.mem_map.mpr ⟨e, hev, rfl⟩)
    rw [ht] at hc
    exact Bool.noConfusion hc
  · intro hev
    refine ⟨he, ?_⟩
    rw [Bool.not_eq_true']
    cases hc : (victims.map Entity.id).contains e.id with
    | false => rfl
    | true =>
      exfalso
      obtain ⟨v, hv, hvid⟩ := List.mem_map.mp (hiff.mp hc)
      exact hev (id_inj_of_WF m hwf (hsub v hv) he hvid ▸ hv)

/-- **C4** (amended).  For a well-formed model and an `IfcElement` carrying a
geometric representation, `remove_small_elements` removes it **iff** the
volume oracle returns a plain value that is truthy (non-zero) and strictly
below `min_volume` (`if vol and vol < min_volume`); a raised call, a
not-a-number result — and, beyond the original claim, a volume of exactly
`0.0`, which is falsy in Python — leave the element in place. -/
theorem remove_small_elements_spec (vol : Nat → VolRes) (m : Model)
    (minv : ℚ) (hwf : m.WF) (e : Entity) (he : e ∈ m.entities)
    (helem : e.isA "IfcElement" = true) (hrep : e.hasRepr = true) :
    e ∉ (remove_small_elements vol m minv).1.entities
      ↔ volCond (vol e.id) minv = true := by
  rw [remove_small_elements_entities]
  have hsub : ∀ v ∈ (m.by_type "IfcElement").filter
      (fun el => el.hasRepr && volCond (vol el.id) minv), v ∈ m.entities := by
    intro v hv
    have h2 := List.mem_of_mem_filter hv
    unfold Model.by_type at h2
    exact List.mem_of_mem_filter h2
  rw [survives_removal_iff m hwf _ hsub e he]
  rw [not_not]
  constructor
  · intro hmem
    have hpred := (List.mem_filter.mp hmem).2
    rw [hrep, Bool.true_and] at hpred
    exact hpred
  · intro hvc
    refine List.mem_filter.mpr ⟨List.mem_filter.mpr ⟨he, helem⟩, ?_⟩
    rw [hrep, hvc]
    rfl

/-- Witness for **C7**: in the concrete `orphanModel`, the protected
relationship `exAgg` — which has zero inbound references — survives orphan
pruning. -/
theorem remove_orphaned_entities_conservative_witness :
    orphanModel.WF ∧ exAgg ∈ (remove_orphaned_entities orphanModel).1.entities :=
  ⟨by decide, remove_orphaned_entities_conservative orphanModel (by decide)
    exAgg (by decide) (Or.inl ⟨by decide, by decide⟩)⟩

/-- Witness for **C4**: in `smallModel` with an oracle reporting volume `1`,
below the threshold `2`, the wall element is removed. -/
theorem remove_small_elements_spec_witness :
    smallModel.WF ∧
    exWall ∉ (remove_small_elements (fun _ => .val 1) smallModel
      2).1.entities :=
  ⟨by decide,
   (remove_small_elements_spec (fun _ => .val 1) smallModel 2
     (by decide) exWall (by decide) (by decide) (by decide)).mpr (by decide)⟩

/-- **C4** counterexample: an element whose volume computation succeeds and
yields the valid number `0.0`, strictly less than `min_volume`, is **not**
removed (Python `if vol and ...` treats `0.0` as falsy), contradicting the
claim as stated. -/
theorem remove_small_elements_zero_volume_counterexample :
    (0 : ℚ) < 2
    ∧ (remove_small_elements (fun _ => .val 0) smallModel 2).2 = 0
    ∧ exWall ∈ (remove_small_elements (fun _ => .val 0) smallModel
        2).1.entities :=
  ⟨by decide, by decide, by decide⟩

theorem get_inverse_filter (m : Model) (p : Entity → Bool) (e : Entity) :
    Model.get_inverse ⟨m.entities.filter p⟩ e = (m.get_inverse e).filter p := by
  unfold Model.get_inverse
  rw [List.filter_comm]

theorem find_id_in_filter (m : Model) (hwf : m.WF) (p : Entity → Bool)
    (e : Entity) (he : e ∈ m.entities) (hp : p e = true) :
    (m.entities.filter p).find? (fun x => x.id = e.id) = some e := by
  cases hfind : (m.entities.filter p).find? (fun x => x.id = e.id) with
  | none =>
    have h := List.find?_eq_none.mp hfind e (List.mem_filter.mpr ⟨he, hp⟩)
    simp at h
  | some a =>
    have h1 : a.id = e.id := by simpa using List.find?_some hfind
    have h2 := List.mem_of_find?_eq_some hfind
    rw [id_inj_of_WF m hwf (List.mem_of_mem_filter h2) he h1]

theorem cur_filter (m : Model) (hwf : m.WF) (p : Entity → Bool)
    (e : Entity) (he : e ∈ m.entities) (hp : p e = true) :
    (⟨m.entities.filter p⟩ : Model).cur e = e := by
  unfold Model.cur
  rw [find_id_in_filter m hwf p e he hp]
  rfl

/-- The whole `remove_unused_property_sets` loop, relative to a list of
already-removed identifiers: every per-set check against the evolving state
coincides with the check against the input model, because only property sets
are removed and property sets never reference property sets. -/
theorem rups_loop (m : Model) (hwf : m.WF) (hschema : m.PsetsNoPsetRefs) :
    ∀ (l : List Entity) (rids : List Nat) (k : Nat),
    (∀ x ∈ l, x ∈ m.entities ∧ x.isA "IfcPropertySet" = true
        ∧ rids.contains x.id = false) →
    (l.map Entity.id).Nodup →
    (∀ i ∈ rids, ∃ v ∈ m.entities, v.id = i ∧ v.isA "IfcPropertySet" = true) →
    l.foldl rupsStep (⟨m.entities.filter (fun x => !rids.contains x.id)⟩, k)
      = (⟨m.entities.filter (fun x =>
            !(rids ++ ((l.filter (fun v => v.HasProperties.isEmpty
                && (m.get_inverse v).isEmpty)).map Entity.id)).contains x.id)⟩,
         k + (l.filter (fun v => v.HasProperties.isEmpty
                && (m.get_inverse v).isEmpty)).length) := by
  intro l
  induction l with
  | nil => intro rids k _ _ _; simp
  | cons h t ih =>
    intro rids k hl hnd hrids
    obtain ⟨hhm, hht, hhr⟩ := hl h (by simp)
    have hhid : ∀ x ∈ t, x.id ≠ h.id := by
      intro x hx hxid
      have hnd' : (h.id :: t.map Entity.id).Nodup := by simpa using hnd
      exact (List.nodup_cons.mp hnd').1 (hxid ▸ List.mem_map.mpr ⟨x, hx, rfl⟩)
    have hcur : (⟨m.entities.filter (fun x => !rids.contains x.id)⟩ : Model).cur h
        = h := cur_filter m hwf _ h hhm (by rw [hhr]; rfl)
    have hinv : (⟨m.entities.filter (fun x => !rids.contains x.id)⟩ : Model).get_inverse h
        = m.get_inverse h := by
      rw [get_inverse_filter]
      apply List.filter_eq_self.mpr
      intro r hr
      obtain ⟨hrm, hrref⟩ := List.mem_filter.mp hr
      cases hcr : rids.contains r.id with
      | false => rfl
      | true =>
        exfalso
        obtain ⟨v, hvm, hvid, hvt⟩ := hrids r.id (List.elem_iff.mp hcr)
        have hvr : v = r := id_inj_of_WF m hwf hvm hrm hvid
        rw [hvr] at hvt
        have := hschema r hrm hvt h hhm (by simpa using hrref)
        rw [this] at hht
        exact Bool.noConfusion hht
    rw [List.foldl_cons]
    have hstep : rupsStep (⟨m.entities.filter (fun x => !rids.contains x.id)⟩, k) h
        = if h.HasProperties.isEmpty && (m.get_inverse h).isEmpty then
            (⟨m.entities.filter (fun x => !(rids ++ [h.id]).contains x.id)⟩, k + 1)
          else (⟨m.entities.filter (fun x => !rids.contains x.id)⟩, k) := by
      unfold rupsStep
      dsimp only
      rw [hcur, hinv]
      by_cases hc : (h.HasProperties.isEmpty && (m.get_inverse h).isEmpty) = true
      · rw [if_pos hc, if_pos hc]
        have hinv0 : m.get_inverse h = [] :=
          List.isEmpty_iff.mp (Bool.and_elim_right hc)
        rw [hinv0]
        simp only [List.filter_nil, List.foldl_nil, Prod.mk.injEq]
        refine ⟨?_, trivial⟩
        unfold Model.remove
        dsimp only
        rw [List.filter_filter]
        congr 1
        apply List.filter_congr
        intro x _
        by_cases hxe : x.id = h.id
        · simp [hxe]
        · cases hx : rids.contains x.id with
          | false =>
            have hx' : x.id ∉ rids := by simpa using hx
            simp [hxe, hx', List.mem_append]
          | true =>
            have hx' : x.id ∈ rids := by simpa using hx
            simp [hxe, hx', List.mem_append]
      · rw [if_neg hc, if_neg hc]
    rw [hstep]
    by_cases hc : (h.HasProperties.isEmpty && (m.get_inverse h).isEmpty) = true
    · rw [if_pos hc]
      rw [ih (rids ++ [h.id]) (k + 1)
        (fun x hx => ⟨(hl x (List.mem_cons_of_mem h hx)).1,
          (hl x (List.mem_cons_of_mem h hx)).2.1, by
            have h1 : x.id ∉ rids := by
              simpa using (hl x (List.mem_cons_of_mem h hx)).2.2
            have h2 := hhid x hx
            simp [List.mem_append, h1, h2]⟩)
        (by
          have hnd' : (h.id :: t.map Entity.id).Nodup := by simpa using hnd
          exact (List.nodup_cons.mp hnd').2)
        (by
          intro i hi
          rcases List.mem_append.mp hi with hi | hi
          · exact hrids i hi
          · exact ⟨h, hhm, (List.mem_singleton.mp hi).symm, hht⟩)]
      rw [List.filter_cons, if_pos hc]
      simp only [List.map_cons, Prod.mk.injEq, List.length_cons]
      refine ⟨?_, by omega⟩
      congr 1
      apply List.filter_congr
      intro x _
      congr 2
      simp [List.append_assoc]
    · rw [if_neg hc]
      rw [ih rids k
        (fun x hx => hl x (List.mem_cons_of_mem h hx))
        (by
          have hnd' : (h.id :: t.map Entity.id).Nodup := by simpa using hnd
          exact (List.nodup_cons.mp hnd').2)
        hrids]
      rw [List.filter_cons, if_neg hc]

theorem remove_unused_property_sets_entities (m : Model) (hwf : m.WF)
    (hschema : m.PsetsNoPsetRefs) :
    remove_unused_property_sets m
      = (⟨m.entities.filter (fun x =>
            !(((m.by_type "IfcPropertySet").filter (fun v =>
                v.HasProperties.isEmpty && (m.get_inverse v).isEmpty)).map
              Entity.id).contains x.id)⟩,
         ((m.by_type "IfcPropertySet").filter (fun v =>
            v.HasProperties.isEmpty && (m.get_inverse v).isEmpty)).length) := by
  unfold remove_unused_property_sets
  have h0 : (⟨m.entities.filter (fun x => !([] : List Nat).contains x.id)⟩ : Model) = m := by
    have h1 : m.entities.filter (fun x => !([] : List Nat).contains x.id) = m.entities :=
      List.filter_eq_self.mpr (fun a _ => rfl)
    rw [h1]
  have hloop := rups_loop m hwf hschema (m.by_type "IfcPropertySet") [] 0
    (fun x hx => ⟨List.mem_of_mem_filter hx, (List.mem_filter.mp hx).2, rfl⟩)
    (List.Nodup.sublist (List.Sublist.map Entity.id (List.filter_sublist m.entities)) hwf)
    (by intro i hi; simp at hi)
  rw [h0] at hloop
  rw [hloop, List.nil_append, Nat.zero_add]

/-- **C6**.  `remove_unused_property_sets` removes a property set **iff** it
has an empty property list and an empty inverse set — both judged on the
input model —, and no defining `IfcRelDefinesByProperties` relation of a
removed set survives it (vacuously: a removed set has no inbound reference at
all, so the relation-removal branch of the source can never fire).  Requires
well-formed identifiers and the schema fact that property sets do not
reference property sets. -/
theorem remove_unused_property_sets_spec (m : Model) (hwf : m.WF)
    (hschema : m.PsetsNoPsetRefs) (pset : Entity) (he : pset ∈ m.entities)
    (ht : pset.isA "IfcPropertySet" = true) :
    (pset ∉ (remove_unused_property_sets m).1.entities
        ↔ (pset.HasProperties = [] ∧ m.get_inverse pset = []))
    ∧ (pset ∉ (remove_unused_property_sets m).1.entities →
        ∀ rel ∈ m.get_inverse pset,
          rel.isA "IfcRelDefinesByProperties" = true →
          rel ∉ (remove_unused_property_sets m).1.entities) := by
  have hchar := remove_unused_property_sets_entities m hwf hschema
  have hsub : ∀ v ∈ (m.by_type "IfcPropertySet").filter (fun v =>
      v.HasProperties.isEmpty && (m.get_inverse v).isEmpty), v ∈ m.entities := by
    intro v hv
    have h2 := List.mem_of_mem_filter hv
    unfold Model.by_type at h2
    exact List.mem_of_mem_filter h2
  have hiff : pset ∉ (remove_unused_property_sets m).1.entities
      ↔ (pset.HasProperties = [] ∧ m.get_inverse pset = []) := by
    rw [hchar]
    dsimp only
    rw [survives_removal_iff m hwf _ hsub pset he, not_not]
    constructor
    · intro hv
      have hc := (List.mem_filter.mp hv).2
      exact ⟨List.isEmpty_iff.mp (Bool.and_elim_left hc),
        List.isEmpty_iff.mp (Bool.and_elim_right hc)⟩
    · rintro ⟨h1, h2⟩
      refine List.mem_filter.mpr ⟨?_, ?_⟩
      · exact List.mem_filter.mpr ⟨he, ht⟩
      · rw [Bool.and_eq_true]
        exact ⟨List.isEmpty_iff.mpr h1, List.isEmpty_iff.mpr h2⟩
  refine ⟨hiff, ?_⟩
  intro hno rel hrel _
  rw [(hiff.mp hno).2] at hrel
  exact absurd hrel (List.not_mem_nil rel)

/-- Witness for **C6**: in the concrete `rupsModel`, the empty and
unreferenced property set is removed. -/
theorem remove_unused_property_sets_spec_witness :
    rupsModel.WF ∧
    exEmptyPset ∉ (remove_unused_property_sets rupsModel).1.entities :=
  ⟨by decide,
   ((remove_unused_property_sets_spec rupsModel (by decide) (by decide)
      exEmptyPset (by decide) (by decide)).1).mpr ⟨by decide, by decide⟩⟩

theorem find?_fst_preserving (g : String × Attr → String × Attr)
    (hg : ∀ p, (g p).1 = p.1) (l : List (String × Attr)) (nm : String) :
    (l.map g).find? (fun p => p.1 = nm)
      = (l.find? (fun p => p.1 = nm)).map g := by
  induction l with
  | nil => rfl
  | cons h t ih =>
    by_cases hc : h.1 = nm <;>
      simp [List.find?_cons, hg, hc, ih]

theorem setHP_attr_ne (e : Entity) (l : List Nat) (nm : String)
    (hnm : nm ≠ "HasProperties") : (e.setHP l).attr nm = e.attr nm := by
  unfold Entity.attr Entity.setHP
  rw [find?_fst_preserving _ (fun p => by by_cases hc : p.1 = "HasProperties" <;> simp [hc])]
  cases hf : e.attrs.find? (fun p => p.1 = nm) with
  | none => rfl
  | some p =>
    have hp : p.1 = nm := by simpa using List.find?_some hf
    simp only [Option.map_some']
    rw [if_neg (by rw [hp]; exact hnm)]

theorem setHP_isA (e : Entity) (l : List Nat) (t : String) :
    (e.setHP l).isA t = e.isA t := rfl

theorem updHP_id (m : Model) (ph : String) (e : Entity) :
    (updHP m ph e).id = e.id := by
  unfold updHP
  split <;> rfl

theorem updHP_isA (m : Model) (ph : String) (e : Entity) (t : String) :
    (updHP m ph e).isA t = e.isA t := by
  unfold updHP
  split <;> rfl

theorem updHP_attr_ne (m : Model) (ph : String) (e : Entity) (nm : String)
    (hnm : nm ≠ "HasProperties") : (updHP m ph e).attr nm = e.attr nm := by
  unfold updHP
  split
  · exact setHP_attr_ne e _ nm hnm
  · rfl

theorem updIf_id (m : Model) (ph : String) (done : List Nat) (e : Entity) :
    (updIf m ph done e).id = e.id := by
  unfold updIf
  split
  · exact updHP_id m ph e
  · rfl

theorem find?_id_map (f : Entity → Entity) (hf : ∀ e, (f e).id = e.id)
    (l : List Entity) (i : Nat) :
    (l.map f).find? (fun x => x.id = i) = (l.find? (fun x => x.id = i)).map f := by
  induction l with
  | nil => rfl
  | cons h t ih =>
    by_cases hc : h.id = i <;>
      simp [List.find?_cons, hf, hc, ih]

/-- The placeholder test only reads the class tags and the `NominalValue`
attribute of the looked-up property, all preserved by the phase-1 rewrites,
so it is insensitive to them. -/
theorem propCheck_updIf (m : Model) (ph : String) (done : List Nat) (i : Nat) :
    Model.propCheck ⟨m.entities.map (updIf m ph done)⟩ ph i
      = m.propCheck ph i := by
  unfold Model.propCheck
  rw [show (⟨m.entities.map (updIf m ph done)⟩ : Model).entities
      = m.entities.map (updIf m ph done) from rfl]
  rw [find?_id_map _ (updIf_id m ph done) m.entities i]
  cases hf : m.entities.find? (fun x => x.id = i) with
  | none => rfl
  | some prop =>
    simp only [Option.map_some']
    unfold updIf
    split
    · rw [updHP_isA, updHP_attr_ne m ph prop "NominalValue" (by decide)]
    · rfl

theorem propMatches_updIf (m : Model) (ph : String) (done : List Nat) (i : Nat) :
    Model.propMatches ⟨m.entities.map (updIf m ph done)⟩ ph i
      = m.propMatches ph i := by
  unfold Model.propMatches
  rw [propCheck_updIf]

theorem find_id (m : Model) (hwf : m.WF) (e : Entity) (he : e ∈ m.entities) :
    m.entities.find? (fun x => x.id = e.id) = some e := by
  cases hfind : m.entities.find? (fun x => x.id = e.id) with
  | none =>
    have h := List.find?_eq_none.mp hfind e he
    simp at h
  | some a =>
    have h1 : a.id = e.id := by simpa using List.find?_some hfind
    have h2 := List.mem_of_find?_eq_some hfind
    rw [id_inj_of_WF m hwf h2 he h1]

theorem cur_updIf (m : Model) (hwf : m.WF) (ph : String) (done : List Nat)
    (h : Entity) (hm : h ∈ m.entities) (hd : done.contains h.id = false) :
    (⟨m.entities.map (updIf m ph done)⟩ : Model).cur h = h := by
  unfold Model.cur
  rw [show (⟨m.entities.map (updIf m ph done)⟩ : Model).entities
      = m.entities.map (updIf m ph done) from rfl]
  rw [find?_id_map _ (updIf_id m ph done) m.entities h.id]
  rw [find_id m hwf h hm]
  simp only [Option.map_some', Option.getD_some]
  unfold updIf
  rw [hd]
  exact if_neg (fun hcc => Bool.noConfusion hcc)

/-- Phase 1 relative to the set `done` of already-rewritten identifiers:
the deleted-property count and the empty-set list are computed exactly as on
the input model, and the model is the input model with the processed
non-empty sets rewritten. -/
theorem phase1_spec (m : Model) (hwf : m.WF) (ph : String) :
    ∀ (l : List Entity) (done : List Nat) (d : Nat) (emp : List Nat),
    (∀ x ∈ l, x ∈ m.entities ∧ x.isA "IfcPropertySet" = true
        ∧ done.contains x.id = false) →
    (l.map Entity.id).Nodup →
    phase1Pure ph (⟨m.entities.map (updIf m ph done)⟩, d, emp) l
      = (⟨m.entities.map (updIf m ph
            (done ++ (l.filter (fun ps => !(keptL m ph ps).isEmpty)).map Entity.id))⟩,
         d + (l.map (fun ps => matchedLen m ph ps)).sum,
         emp ++ (l.filter (fun ps => (keptL m ph ps).isEmpty)).map Entity.id) := by
  intro l
  induction l with
  | nil => intro done d emp _ _; simp [phase1Pure]
  | cons h t ih =>
    intro done d emp hl hnd
    obtain ⟨hhm, hht, hhd⟩ := hl h (by simp)
    have hhid : ∀ x ∈ t, x.id ≠ h.id := by
      intro x hx hxid
      have hnd' : (h.id :: t.map Entity.id).Nodup := by simpa using hnd
      exact (List.nodup_cons.mp hnd').1 (hxid ▸ List.mem_map.mpr ⟨x, hx, rfl⟩)
    have hndt : (t.map Entity.id).Nodup := by
      have hnd' : (h.id :: t.map Entity.id).Nodup := by simpa using hnd
      exact (List.nodup_cons.mp hnd').2
    have hcur := cur_updIf m hwf ph done h hhm hhd
    have hmatch : ∀ q : Bool, (h.HasProperties.filter (fun i =>
          (Model.propMatches ⟨m.entities.map (updIf m ph done)⟩ ph i) == q))
        = h.HasProperties.filter (fun i => m.propMatches ph i == q) := by
      intro q
      apply List.filter_congr
      intro i _
      rw [propMatches_updIf]
    simp only [phase1Pure]
    rw [hcur]
    have hkept : h.HasProperties.filter (fun i =>
          !Model.propMatches ⟨m.entities.map (updIf m ph done)⟩ ph i)
        = keptL m ph h := by
      unfold keptL
      apply List.filter_congr
      intro i _
      rw [propMatches_updIf]
    have hmat : (h.HasProperties.filter (fun i =>
          Model.propMatches ⟨m.entities.map (updIf m ph done)⟩ ph i)).length
        = matchedLen m ph h := by
      unfold matchedLen
      congr 1
      apply List.filter_congr
      intro i _
      rw [propMatches_updIf]
    rw [hkept, hmat]
    by_cases hke : (keptL m ph h).isEmpty = true
    · rw [if_pos hke]
      rw [ih done (d + matchedLen m ph h) (emp ++ [h.id])
        (fun x hx => hl x (List.mem_cons_of_mem h hx)) hndt]
      rw [List.filter_cons, List.filter_cons, if_neg (by rw [hke]; simp),
        if_pos hke]
      simp only [List.map_cons, List.sum_cons, Prod.mk.injEq]
      exact ⟨trivial, by omega,
        (List.append_cons emp h.id
          ((t.filter (fun ps => (keptL m ph ps).isEmpty)).map Entity.id)).symm⟩
    · rw [if_neg hke]
      have hke' : (keptL m ph h).isEmpty = false := Bool.eq_false_iff.mpr hke
      have hset : Model.setHasProperties ⟨m.entities.map (updIf m ph done)⟩ h.id
            (keptL m ph h)
          = ⟨m.entities.map (updIf m ph (done ++ [h.id]))⟩ := by
        unfold Model.setHasProperties
        congr 1
        rw [show (⟨m.entities.map (updIf m ph done)⟩ : Model).entities
            = m.entities.map (updIf m ph done) from rfl]
        rw [List.map_map]
        apply List.map_congr_left
        intro e hem
        simp only [Function.comp_apply]
        by_cases hei : e.id = h.id
        · have hee : e = h := id_inj_of_WF m hwf hem hhm hei
          subst hee
          have h1 : updIf m ph done e = e := by
            unfold updIf
            rw [hhd]
            exact if_neg (fun hcc => Bool.noConfusion hcc)
          rw [h1, if_pos rfl]
          unfold updIf
          rw [show (done ++ [e.id]).contains e.id = true by simp]
          unfold updHP
          rw [hht, hke']
          rfl
        · have h2 : (updIf m ph done e).id = e.id := updIf_id m ph done e
          rw [if_neg (by rw [h2]; exact hei)]
          have h3 : (done ++ [h.id]).contains e.id = done.contains e.id := by
            cases hc : done.contains e.id with
            | true =>
              have hd : e.id ∈ done := by simpa using hc
              simp [hd]
            | false =>
              have hd : e.id ∉ done := by simpa using hc
              simp [hd, hei]
          unfold updIf
          rw [h3]
      rw [hset]
      rw [ih (done ++ [h.id]) (d + matchedLen m ph h) emp
        (fun x hx => ⟨(hl x (List.mem_cons_of_mem h hx)).1,
          (hl x (List.mem_cons_of_mem h hx)).2.1, by
            have h1 : x.id ∉ done := by
              simpa using (hl x (List.mem_cons_of_mem h hx)).2.2
            have h2 := hhid x hx
            simp [h1, h2]⟩)
        hndt]
      rw [List.filter_cons, List.filter_cons, if_pos (by rw [hke']; rfl),
        if_neg (by rw [hke']; simp)]
      simp only [List.map_cons, List.sum_cons, Prod.mk.injEq]
      refine ⟨?_, by omega, trivial⟩
      rw [(List.append_cons done h.id
        ((t.filter (fun ps => !(keptL m ph ps).isEmpty)).map Entity.id))]

theorem phase1_full (m : Model) (hwf : m.WF) (ph : String) :
    phase1Pure ph (m, 0, []) (m.by_type "IfcPropertySet")
      = (⟨m.entities.map (updHP m ph)⟩,
         ((m.by_type "IfcPropertySet").map (fun ps => matchedLen m ph ps)).sum,
         ((m.by_type "IfcPropertySet").filter
            (fun ps => (keptL m ph ps).isEmpty)).map Entity.id) := by
  have h0 : (⟨m.entities.map (updIf m ph [])⟩ : Model) = m := by
    have h1 : m.entities.map (updIf m ph []) = m.entities.map id :=
      List.map_congr_left (fun e _ => rfl)
    rw [h1, List.map_id]
  have hloop := phase1_spec m hwf ph (m.by_type "IfcPropertySet") [] 0 []
    (fun x hx => ⟨List.mem_of_mem_filter hx, (List.mem_filter.mp hx).2, rfl⟩)
    (List.Nodup.sublist (List.Sublist.map Entity.id (List.filter_sublist m.entities)) hwf)
  rw [h0] at hloop
  rw [hloop]
  simp only [List.nil_append, Nat.zero_add]
  have hM : (⟨m.entities.map (updIf m ph
        (((m.by_type "IfcPropertySet").filter
          (fun ps => !(keptL m ph ps).isEmpty)).map Entity.id))⟩ : Model)
      = (⟨m.entities.map (updHP m ph)⟩ : Model) := by
    congr 1
    apply List.map_congr_left
    intro e hem
    unfold updIf
    cases hc : (((m.by_type "IfcPropertySet").filter
        (fun ps => !(keptL m ph ps).isEmpty)).map Entity.id).contains e.id with
    | true => rfl
    | false =>
      rw [if_neg (fun hcc : (false = true) => Bool.noConfusion hcc)]
      cases hcond : (e.isA "IfcPropertySet" && !(keptL m ph e).isEmpty) with
      | false =>
        have hupd : updHP m ph e = e := by
          unfold updHP
          rw [hcond]
          exact if_neg (fun hcc => Bool.noConfusion hcc)
        exact hupd.symm
      | true =>
        exfalso
        obtain ⟨hA, hB⟩ : e.isA "IfcPropertySet" = true
            ∧ (!(keptL m ph e).isEmpty) = true := by simpa using hcond
        have hmem : e.id ∈ ((m.by_type "IfcPropertySet").filter
            (fun ps => !(keptL m ph ps).isEmpty)).map Entity.id :=
          List.mem_map.mpr ⟨e, List.mem_filter.mpr
            ⟨List.mem_filter.mpr ⟨hem, hA⟩, hB⟩, rfl⟩
        have h1 : List.elem e.id (((m.by_type "IfcPropertySet").filter
            (fun ps => !(keptL m ph ps).isEmpty)).map Entity.id) = true :=
          List.elem_iff.mpr hmem
        have h2 : List.elem e.id (((m.by_type "IfcPropertySet").filter
            (fun ps => !(keptL m ph ps).isEmpty)).map Entity.id) = false := hc
        rw [h1] at h2
        exact Bool.noConfusion h2
  rw [hM]

theorem foldl_remove_mem (victims : List Entity) (mm : Model) (x : Entity)
    (hx : x ∈ (victims.foldl (fun a e => a.remove e) mm).entities) :
    x ∈ mm.entities := by
  rw [foldl_remove_eq_removeIds, removeIds_entities] at hx
  exact List.mem_of_mem_filter hx

theorem step_subset (mm : Model) (pset : Entity) (x : Entity)
    (hx : x ∈ ((((mm.get_inverse pset).filter
        (fun rel => rel.isA "IfcRelDefinesByProperties")).foldl
          (fun a rel => a.remove rel) mm).remove pset).entities) :
    x ∈ mm.entities := by
  rw [remove_entities] at hx
  exact foldl_remove_mem _ mm x (List.mem_of_mem_filter hx)

theorem step_nodup (mm : Model) (pset : Entity)
    (hnd : (mm.entities.map Entity.id).Nodup) :
    (((((mm.get_inverse pset).filter
        (fun rel => rel.isA "IfcRelDefinesByProperties")).foldl
          (fun a rel => a.remove rel) mm).remove pset).entities.map
            Entity.id).Nodup := by
  rw [remove_entities, foldl_remove_eq_removeIds, removeIds_entities]
  exact List.Nodup.sublist (List.Sublist.map Entity.id
    ((List.filter_sublist _).trans (List.filter_sublist _))) hnd

theorem step_survives (mm : Model) (pset : Entity) (y : Entity)
    (hnd : (mm.entities.map Entity.id).Nodup)
    (hy : y ∈ mm.entities) (hyp : y.id ≠ pset.id)
    (hyD : y.isA "IfcRelDefinesByProperties" = false) :
    y ∈ ((((mm.get_inverse pset).filter
        (fun rel => rel.isA "IfcRelDefinesByProperties")).foldl
          (fun a rel => a.remove rel) mm).remove pset).entities := by
  rw [remove_entities]
  refine List.mem_filter.mpr ⟨?_, by simpa using hyp⟩
  rw [foldl_remove_eq_removeIds, removeIds_entities]
  refine List.mem_filter.mpr ⟨hy, ?_⟩
  cases hc : (((mm.get_inverse pset).filter
      (fun rel => rel.isA "IfcRelDefinesByProperties")).map Entity.id).contains
        y.id with
  | false => rfl
  | true =>
    exfalso
    obtain ⟨v, hv, hvid⟩ := List.mem_map.mp (List.elem_iff.mp hc)
    have hvm : v ∈ mm.entities :=
      List.mem_of_mem_filter (List.mem_of_mem_filter hv)
    have hvy : v = y := List.inj_on_of_nodup_map hnd hvm hy hvid
    have hvD := (List.mem_filter.mp hv).2
    rw [hvy, hyD] at hvD
    exact Bool.noConfusion hvD

theorem phase2_subset : ∀ (E : List Nat) (mm : Model) (x : Entity),
    x ∈ (placeholderPhase2 mm E).entities → x ∈ mm.entities := by
  intro E
  induction E with
  | nil => intro mm x hx; exact hx
  | cons j F ih =>
    intro mm x hx
    simp only [placeholderPhase2] at hx
    cases hf : mm.entities.find? (fun y => y.id = j) with
    | none => rw [hf] at hx; exact ih _ x hx
    | some pset =>
      rw [hf] at hx
      exact step_subset mm pset x (ih _ x hx)

theorem phase2_persist (E : List Nat) (mm : Model) (i : Nat)
    (h : ∀ x ∈ mm.entities, x.id ≠ i) :
    ∀ x ∈ (placeholderPhase2 mm E).entities, x.id ≠ i :=
  fun x hx => h x (phase2_subset E mm x hx)

theorem phase2_kills : ∀ (E : List Nat) (mm : Model) (i : Nat), i ∈ E →
    ∀ x ∈ (placeholderPhase2 mm E).entities, x.id ≠ i := by
  intro E
  induction E with
  | nil => intro mm i hi; exact absurd hi (List.not_mem_nil i)
  | cons j F ih =>
    intro mm i hi x hx
    simp only [placeholderPhase2] at hx
    rcases List.mem_cons.mp hi with rfl | hiF
    · cases hf : mm.entities.find? (fun y => y.id = i) with
      | none =>
        rw [hf] at hx
        refine phase2_persist F mm i ?_ x hx
        intro y hy
        have := List.find?_eq_none.mp hf y hy
        simpa using this
      | some pset =>
        rw [hf] at hx
        have hpid : pset.id = i := by simpa using List.find?_some hf
        refine phase2_persist F _ i ?_ x hx
        intro y hy
        rw [remove_entities] at hy
        have h2 := (List.mem_filter.mp hy).2
        rw [← hpid]
        simpa using h2
    · cases hf : mm.entities.find? (fun y => y.id = j) with
      | none => rw [hf] at hx; exact ih _ i hiF x hx
      | some pset => rw [hf] at hx; exact ih _ i hiF x hx

theorem phase2_survives : ∀ (E : List Nat) (mm : Model) (y : Entity),
    (mm.entities.map Entity.id).Nodup →
    y ∈ mm.entities → y.id ∉ E →
    y.isA "IfcRelDefinesByProperties" = false →
    y ∈ (placeholderPhase2 mm E).entities := by
  intro E
  induction E with
  | nil => intro mm y _ hy _ _; exact hy
  | cons j F ih =>
    intro mm y hnd hy hyE hyD
    simp only [placeholderPhase2]
    have hyj : y.id ≠ j := fun hc => hyE (hc ▸ List.mem_cons_self j F)
    have hyF : y.id ∉ F := fun hc => hyE (List.mem_cons_of_mem j hc)
    cases hf : mm.entities.find? (fun x => x.id = j) with
    | none => exact ih mm y hnd hy hyF hyD
    | some pset =>
      have hpid : pset.id = j := by simpa using List.find?_some hf
      exact ih _ y (step_nodup mm pset hnd)
        (step_survives mm pset y hnd hy (hpid ▸ hyj) hyD) hyF hyD

theorem phase2_rel_absent : ∀ (E : List Nat) (mm : Model) (i : Nat)
    (rel : Entity),
    (mm.entities.map Entity.id).Nodup →
    i ∈ E →
    (∃ y ∈ mm.entities, y.id = i ∧ y.isA "IfcRelDefinesByProperties" = false) →
    rel ∈ mm.entities →
    rel.isA "IfcRelDefinesByProperties" = true →
    rel.references.contains i = true →
    ∀ x ∈ (placeholderPhase2 mm E).entities, x.id ≠ rel.id := by
  intro E
  induction E with
  | nil => intro mm i rel _ hi; exact absurd hi (List.not_mem_nil i)
  | cons j F ih =>
    intro mm i rel hnd hi hy hrel hdbp href x hx
    obtain ⟨y, hym, hyid, hyD⟩ := hy
    simp only [placeholderPhase2] at hx
    by_cases hij : i = j
    · subst hij
      cases hf : mm.entities.find? (fun z => z.id = i) with
      | none =>
        exfalso
        have := List.find?_eq_none.mp hf y hym
        simp [hyid] at this
      | some pset =>
        rw [hf] at hx
        have hpid : pset.id = i := by simpa using List.find?_some hf
        refine phase2_persist F _ rel.id ?_ x hx
        intro z hz hzr
        rw [remove_entities] at hz
        have hz1 := List.mem_of_mem_filter hz
        rw [foldl_remove_eq_removeIds, removeIds_entities] at hz1
        obtain ⟨hzm, hzc⟩ := List.mem_filter.mp hz1
        have hrv : rel ∈ (mm.get_inverse pset).filter
            (fun r => r.isA "IfcRelDefinesByProperties") := by
          refine List.mem_filter.mpr ⟨?_, hdbp⟩
          refine List.mem_filter.mpr ⟨hrel, ?_⟩
          rw [hpid]
          exact href
        have hcont : (((mm.get_inverse pset).filter
            (fun r => r.isA "IfcRelDefinesByProperties")).map
              Entity.id).contains rel.id = true :=
          List.elem_eq_true_of_mem (List.mem_map.mpr ⟨rel, hrv, rfl⟩)
        rw [hzr, hcont] at hzc
        exact Bool.noConfusion hzc
    · have hiF : i ∈ F := by
        rcases List.mem_cons.mp hi with hc | hc
        · exact absurd hc hij
        · exact hc
      cases hf : mm.entities.find? (fun z => z.id = j) with
      | none =>
        rw [hf] at hx
        exact ih mm i rel hnd hiF ⟨y, hym, hyid, hyD⟩ hrel hdbp href x hx
      | some pset =>
        rw [hf] at hx
        have hpid : pset.id = j := by simpa using List.find?_some hf
        have hyp : y.id ≠ pset.id := by
          rw [hpid, hyid]
          exact hij
        by_cases hrel1 : rel ∈ ((((mm.get_inverse pset).filter
            (fun r => r.isA "IfcRelDefinesByProperties")).foldl
              (fun a r => a.remove r) mm).remove pset).entities
        · exact ih _ i rel (step_nodup mm pset hnd) hiF
            ⟨y, step_survives mm pset y hnd hym hyp hyD, hyid, hyD⟩
            hrel1 hdbp href x hx
        · refine phase2_persist F _ rel.id ?_ x hx
          intro z hz hzr
          have hzm : z ∈ mm.entities := step_subset mm pset z hz
          have : z = rel := List.inj_on_of_nodup_map hnd hzm hrel hzr
          exact hrel1 (this ▸ hz)

theorem splitProps_ok (mm : Model) (ph : String) : ∀ (l : List Nat) (d : Nat)
    (keep : List Nat), splitProps mm ph l = .ok (d, keep) →
    d = (l.filter (fun i => mm.propMatches ph i)).length
    ∧ keep = l.filter (fun i => !mm.propMatches ph i) := by
  intro l
  induction l with
  | nil =>
    intro d keep h
    cases h
    exact ⟨rfl, rfl⟩
  | cons i rest ih =>
    intro d keep h
    unfold splitProps at h
    cases hc : mm.propCheck ph i with
    | error e =>
      rw [hc] at h
      exact Except.noConfusion h
    | ok b =>
      rw [hc] at h
      have hm : mm.propMatches ph i = b := by
        unfold Model.propMatches
        rw [hc]
      cases hs : splitProps mm ph rest with
      | error e =>
        rw [hs] at h
        cases b <;> exact Except.noConfusion h
      | ok p =>
        rw [hs] at h
        obtain ⟨hd, hk⟩ := ih p.1 p.2 (by rw [hs])
        cases b with
        | true =>
          dsimp only at h
          injection h with h1
          injection h1 with h2 h3
          rw [← h2, ← h3, List.filter_cons, List.filter_cons, hm]
          simp [hd, hk]
        | false =>
          dsimp only at h
          injection h with h1
          injection h1 with h2 h3
          rw [← h2, ← h3, List.filter_cons, List.filter_cons, hm]
          simp [hd, hk]

theorem phase1_ok (ph : String) : ∀ (l : List Entity)
    (acc r : Model × Nat × List Nat),
    placeholderPhase1 ph acc l = .ok r → r = phase1Pure ph acc l := by
  intro l
  induction l with
  | nil =>
    intro acc r h
    injection h with h1
    exact h1.symm
  | cons pset rest ih =>
    intro acc r h
    obtain ⟨mm, deleted, empties⟩ := acc
    unfold placeholderPhase1 at h
    dsimp only at h
    cases hs : splitProps mm ph (mm.cur pset).HasProperties with
    | error e =>
      rw [hs] at h
      exact Except.noConfusion h
    | ok p =>
      rw [hs] at h
      dsimp only at h
      obtain ⟨hd, hk⟩ := splitProps_ok mm ph _ p.1 p.2 (by rw [hs])
      rw [hk, hd] at h
      unfold phase1Pure
      dsimp only
      by_cases hke : ((mm.cur pset).HasProperties.filter
          (fun i => !mm.propMatches ph i)).isEmpty = true
      · rw [if_pos hke] at h ⊢
        exact ih _ r h
      · rw [if_neg hke] at h ⊢
        exact ih _ r h

theorem rpp_eq (m : Model) (hwf : m.WF) (ph : String) (out : Model × Nat)
    (hok : remove_placeholder_properties m ph = .ok out) :
    out = (placeholderPhase2 ⟨m.entities.map (updHP m ph)⟩
          (((m.by_type "IfcPropertySet").filter
            (fun ps => (keptL m ph ps).isEmpty)).map Entity.id),
         ((m.by_type "IfcPropertySet").map (fun ps => matchedLen m ph ps)).sum) := by
  unfold remove_placeholder_properties at hok
  cases hph : placeholderPhase1 ph (m, 0, []) (m.by_type "IfcPropertySet") with
  | error e =>
    rw [hph] at hok
    exact Except.noConfusion hok
  | ok r =>
    rw [hph] at hok
    dsimp only at hok
    injection hok with h1
    have hr := phase1_ok ph (m.by_type "IfcPropertySet") (m, 0, []) r hph
    rw [phase1_full m hwf ph] at hr
    rw [← h1, hr]

theorem updHP_map_nodup (m : Model) (hwf : m.WF) (ph : String) :
    ((⟨m.entities.map (updHP m ph)⟩ : Model).entities.map Entity.id).Nodup := by
  rw [show (⟨m.entities.map (updHP m ph)⟩ : Model).entities
      = m.entities.map (updHP m ph) from rfl]
  rw [List.map_map]
  have h : m.entities.map (Entity.id ∘ updHP m ph) = m.entities.map Entity.id :=
    List.map_congr_left (fun e _ => updHP_id m ph e)
  rw [h]
  exact hwf

theorem updHP_not_pset (m : Model) (ph : String) (e : Entity)
    (hp : e.isA "IfcPropertySet" = false) : updHP m ph e = e := by
  unfold updHP
  rw [hp]
  exact if_neg (fun hcc => Bool.noConfusion hcc)

/-- **C10** (amended).  Provided the pass returns — no placeholder test
raises — a property set whose property list is already empty before the
pass is removed by `remove_placeholder_properties`, together with every
`IfcRelDefinesByProperties` relation that references it, and it contributes
zero to the returned count, which is exactly the total number of
placeholder properties deleted across all property sets.  On a model in
which some walked single-value property has an unset `NominalValue` the
pass instead raises and removes nothing (see the counterexample). -/
theorem remove_placeholder_empty_pset (m : Model) (hwf : m.WF)
    (hdisj : m.PsetRelDisjoint) (ph : String) (pset : Entity)
    (he : pset ∈ m.entities) (ht : pset.isA "IfcPropertySet" = true)
    (hempty : pset.HasProperties = []) (out : Model × Nat)
    (hok : remove_placeholder_properties m ph = Except.ok out) :
    (∀ x ∈ out.1.entities, x.id ≠ pset.id)
    ∧ (∀ rel ∈ m.entities, rel.isA "IfcRelDefinesByProperties" = true →
        rel.references.contains pset.id = true →
        ∀ x ∈ out.1.entities, x.id ≠ rel.id)
    ∧ matchedLen m ph pset = 0
    ∧ out.2
        = ((m.by_type "IfcPropertySet").map (fun ps => matchedLen m ph ps)).sum := by
  have hrpp := rpp_eq m hwf ph out hok
  have hkept0 : keptL m ph pset = [] := by
    unfold keptL
    rw [hempty]
    rfl
  have hE : pset.id ∈ ((m.by_type "IfcPropertySet").filter
      (fun ps => (keptL m ph ps).isEmpty)).map Entity.id :=
    List.mem_map.mpr ⟨pset, List.mem_filter.mpr
      ⟨List.mem_filter.mpr ⟨he, ht⟩, by rw [hkept0]; rfl⟩, rfl⟩
  have hnd1 := updHP_map_nodup m hwf ph
  refine ⟨?_, ?_, ?_, ?_⟩
  · intro x hx
    rw [hrpp] at hx
    exact phase2_kills _ _ pset.id hE x hx
  · intro rel hrelm hdbp href x hx
    rw [hrpp] at hx
    have hrelpset : rel.isA "IfcPropertySet" = false := by
      cases hcc : rel.isA "IfcPropertySet" with
      | false => rfl
      | true => exact absurd ⟨hcc, hdbp⟩ (hdisj rel hrelm)
    have hrelM1 : rel ∈ (⟨m.entities.map (updHP m ph)⟩ : Model).entities :=
      List.mem_map.mpr ⟨rel, hrelm, updHP_not_pset m ph rel hrelpset⟩
    have hpsetDbP : pset.isA "IfcRelDefinesByProperties" = false := by
      cases hcc : pset.isA "IfcRelDefinesByProperties" with
      | false => rfl
      | true => exact absurd ⟨ht, hcc⟩ (hdisj pset he)
    exact phase2_rel_absent _ _ pset.id rel hnd1 hE
      ⟨updHP m ph pset, List.mem_map.mpr ⟨pset, he, rfl⟩,
        updHP_id m ph pset, by rw [updHP_isA]; exact hpsetDbP⟩
      hrelM1 hdbp href x hx
  · unfold matchedLen
    rw [hempty]
    rfl
  · rw [hrpp]

/-- **C10** counterexample: in `poisonModel` the born-empty set
`exBarePset` is present, yet `remove_placeholder_properties` raises on the
unset-`NominalValue` single-value property walked first, removing nothing
and returning no count — the original universally quantified claim fails. -/
theorem remove_placeholder_raise_counterexample :
    exBarePset ∈ poisonModel.entities
    ∧ exBarePset.isA "IfcPropertySet" = true
    ∧ exBarePset.HasProperties = []
    ∧ remove_placeholder_properties poisonModel "-" = Except.error () :=
  ⟨by decide, by decide, by decide, rfl⟩

/-- **C5** (amended).  Provided the pass returns — no placeholder test
raises — a property set all of whose attached properties are single-value
properties with the placeholder value (equivalently: every attached
property matches) is removed with its defining `IfcRelDefinesByProperties`
relations; a set that retains at least one property (some attached property
does not match — e.g. a complex property) stays, with its property list
shortened to the kept properties; and the returned count is the total
number of matching properties over all sets. -/
theorem remove_placeholder_properties_spec (m : Model) (hwf : m.WF)
    (hdisj : m.PsetRelDisjoint) (ph : String) (pset : Entity)
    (he : pset ∈ m.entities) (ht : pset.isA "IfcPropertySet" = true)
    (out : Model × Nat)
    (hok : remove_placeholder_properties m ph = Except.ok out) :
    ((∀ i ∈ pset.HasProperties, m.propMatches ph i = true) →
       (∀ x ∈ out.1.entities, x.id ≠ pset.id)
       ∧ (∀ rel ∈ m.entities, rel.isA "IfcRelDefinesByProperties" = true →
            rel.references.contains pset.id = true →
            ∀ x ∈ out.1.entities, x.id ≠ rel.id))
    ∧ ((∃ i ∈ pset.HasProperties, m.propMatches ph i = false) →
        pset.setHP (keptL m ph pset) ∈ out.1.entities)
    ∧ out.2
        = ((m.by_type "IfcPropertySet").map (fun ps => matchedLen m ph ps)).sum := by
  have hrpp := rpp_eq m hwf ph out hok
  have hnd1 := updHP_map_nodup m hwf ph
  have hpsetDbP : pset.isA "IfcRelDefinesByProperties" = false := by
    cases hcc : pset.isA "IfcRelDefinesByProperties" with
    | false => rfl
    | true => exact absurd ⟨ht, hcc⟩ (hdisj pset he)
  refine ⟨?_, ?_, by rw [hrpp]⟩
  · intro hall
    have hkept0 : keptL m ph pset = [] := by
      unfold keptL
      rw [List.filter_eq_nil_iff]
      intro i hi
      rw [hall i hi]
      simp
    have hE : pset.id ∈ ((m.by_type "IfcPropertySet").filter
        (fun ps => (keptL m ph ps).isEmpty)).map Entity.id :=
      List.mem_map.mpr ⟨pset, List.mem_filter.mpr
        ⟨List.mem_filter.mpr ⟨he, ht⟩, by rw [hkept0]; rfl⟩, rfl⟩
    refine ⟨?_, ?_⟩
    · intro x hx
      rw [hrpp] at hx
      exact phase2_kills _ _ pset.id hE x hx
    · intro rel hrelm hdbp href x hx
      rw [hrpp] at hx
      have hrelpset : rel.isA "IfcPropertySet" = false := by
        cases hcc : rel.isA "IfcPropertySet" with
        | false => rfl
        | true => exact absurd ⟨hcc, hdbp⟩ (hdisj rel hrelm)
      have hrelM1 : rel ∈ (⟨m.entities.map (updHP m ph)⟩ : Model).entities :=
        List.mem_map.mpr ⟨rel, hrelm, updHP_not_pset m ph rel hrelpset⟩
      exact phase2_rel_absent _ _ pset.id rel hnd1 hE
        ⟨updHP m ph pset, List.mem_map.mpr ⟨pset, he, rfl⟩,
          updHP_id m ph pset, by rw [updHP_isA]; exact hpsetDbP⟩
        hrelM1 hdbp href x hx
  · rintro ⟨i, hi, hmi⟩
    have hkeptne : (keptL m ph pset).isEmpty = false := by
      have himem : i ∈ keptL m ph pset :=
        List.mem_filter.mpr ⟨hi, by rw [hmi]; rfl⟩
      cases hcc : (keptL m ph pset).isEmpty with
      | false => rfl
      | true =>
        rw [List.isEmpty_iff.mp hcc] at himem
        exact absurd himem (List.not_mem_nil i)
    have hupd : updHP m ph pset = pset.setHP (keptL m ph pset) := by
      unfold updHP
      rw [ht, hkeptne]
      rfl
    have hEnot : pset.id ∉ ((m.by_type "IfcPropertySet").filter
        (fun ps => (keptL m ph ps).isEmpty)).map Entity.id := by
      intro hc
      obtain ⟨ps, hps, hpsid⟩ := List.mem_map.mp hc
      have hpsm : ps ∈ m.entities := by
        have h2 := List.mem_of_mem_filter hps
        unfold Model.by_type at h2
        exact List.mem_of_mem_filter h2
      have : ps = pset := id_inj_of_WF m hwf hpsm he hpsid
      have hempty := (List.mem_filter.mp hps).2
      rw [this, hkeptne] at hempty
      exact Bool.noConfusion hempty
    rw [hrpp]
    rw [← hupd]
    refine phase2_survives _ _ (updHP m ph pset) hnd1
      (List.mem_map.mpr ⟨pset, he, rfl⟩) ?_ ?_
    · rw [updHP_id]
      exact hEnot
    · rw [updHP_isA]
      exact hpsetDbP

/-- Witness for **C10**: on `dashModel` the pass returns, and the
born-empty property set (id 6) and its defining relation (id 7) are gone
from the returned graph. -/
theorem remove_placeholder_empty_pset_witness :
    remove_placeholder_properties dashModel "-" = Except.ok (dashOut, 3)
    ∧ ((dashOut.entities.map Entity.id).contains 6 = false
      ∧ (dashOut.entities.map Entity.id).contains 7 = false) := by
  constructor
  · rfl
  · have h := remove_placeholder_empty_pset dashModel (by decide) (by decide)
      "-" exBarePset (by decide) (by decide) (by decide) (dashOut, 3) rfl
    constructor
    · cases hc : (dashOut.entities.map Entity.id).contains 6 with
      | false => rfl
      | true =>
        obtain ⟨x, hx, hxid⟩ := List.mem_map.mp (List.elem_iff.mp hc)
        exact absurd hxid (h.1 x hx)
    · cases hc : (dashOut.entities.map Entity.id).contains 7 with
      | false => rfl
      | true =>
        obtain ⟨x, hx, hxid⟩ := List.mem_map.mp (List.elem_iff.mp hc)
        exact absurd hxid (h.2.1 exRelBare (by decide) (by decide) (by decide) x hx)

/-- Witness for **C5**: on `dashModel` the pass returns, the mixed property
set keeps its shortened list, and the returned count is the total number of
matched properties. -/
theorem remove_placeholder_properties_spec_witness :
    remove_placeholder_properties dashModel "-" = Except.ok (dashOut, 3)
    ∧ exMixedPset.setHP (keptL dashModel "-" exMixedPset) ∈ dashOut.entities
    ∧ (3 : Nat) = ((dashModel.by_type "IfcPropertySet").map
        (fun ps => matchedLen dashModel "-" ps)).sum := by
  have h := remove_placeholder_properties_spec dashModel (by decide) (by decide)
    "-" exMixedPset (by decide) (by decide) (dashOut, 3) rfl
  exact ⟨rfl, h.2.1 (by decide), h.2.2⟩

/-- **C5** counterexample: in `dashModel` every *single-value* property
attached to the mixed property set passes the placeholder test (the test
returns `true`; none raises), yet the set and its defining relation are
both still present in the output — the set also holds a complex property,
which the pass keeps, so the set never becomes empty.  The claim as stated
(quantifying only over the single-value properties) is therefore false. -/
theorem remove_placeholder_mixed_counterexample :
    (∀ i ∈ exMixedPset.HasProperties, ∀ prop ∈ dashModel.entities,
        prop.id = i → prop.isA "IfcPropertySingleValue" = true →
        dashModel.propCheck "-" i = Except.ok true)
    ∧ ((remove_placeholder_properties dashModel "-").map
        (fun out => ((out.1.entities.map Entity.id).contains 1,
                     (out.1.entities.map Entity.id).contains 2)))
      = Except.ok (true, true) := by
  exact ⟨by decide, rfl⟩

theorem digitChar_props : ∀ d, d < 10 →
    (Nat.digitChar d).isDigit = true
    ∧ (Nat.digitChar d).isWhitespace = false
    ∧ (Nat.digitChar d).toNat - 48 = d := by decide

theorem digitsVal_append_singleton (l : List Char) (c : Char) :
    digitsVal (l ++ [c]) = 10 * digitsVal l + (c.toNat - 48) := by
  unfold digitsVal
  rw [List.foldl_append]
  rfl

theorem natToDigitsAux_spec : ∀ (fuel n : Nat), n < fuel →
    digitsVal (natToDigitsAux fuel n) = n
    ∧ natToDigitsAux fuel n ≠ []
    ∧ ∀ c ∈ natToDigitsAux fuel n, c.isDigit = true ∧ c.isWhitespace = false := by
  intro fuel
  induction fuel with
  | zero => intro n hn; omega
  | succ fuel ih =>
    intro n hn
    by_cases h10 : n < 10
    · simp only [natToDigitsAux, if_pos h10]
      obtain ⟨h1, h2, h3⟩ := digitChar_props n h10
      refine ⟨?_, by simp, ?_⟩
      · unfold digitsVal
        simp only [List.foldl_cons, List.foldl_nil]
        omega
      · intro c hc
        rw [List.mem_singleton.mp hc]
        exact ⟨h1, h2⟩
    · simp only [natToDigitsAux, if_neg h10]
      have hdiv : n / 10 < n := Nat.div_lt_self (by omega) (by omega)
      obtain ⟨ih1, ih2, ih3⟩ := ih (n / 10) (by omega)
      obtain ⟨g1, g2, g3⟩ := digitChar_props (n % 10) (Nat.mod_lt n (by omega))
      refine ⟨?_, by simp, ?_⟩
      · rw [digitsVal_append_singleton, ih1, g3]
        omega
      · intro c hc
        rcases List.mem_append.mp hc with hc | hc
        · exact ih3 c hc
        · rw [List.mem_singleton.mp hc]
          exact ⟨g1, g2⟩

theorem digitsVal_natToDigitChars (n : Nat) :
    digitsVal (natToDigitChars n) = n :=
  (natToDigitsAux_spec (n + 1) n (by omega)).1

theorem natToDigitChars_ne_nil (n : Nat) : natToDigitChars n ≠ [] :=
  (natToDigitsAux_spec (n + 1) n (by omega)).2.1

theorem natToDigitChars_props (n : Nat) :
    ∀ c ∈ natToDigitChars n, c.isDigit = true ∧ c.isWhitespace = false :=
  (natToDigitsAux_spec (n + 1) n (by omega)).2.2

theorem natToDigitsAux_length : ∀ (fuel n k : Nat), n < fuel → n < 10 ^ k →
    1 ≤ k → (natToDigitsAux fuel n).length ≤ k := by
  intro fuel
  induction fuel with
  | zero => intro n k hn; omega
  | succ fuel ih =>
    intro n k hn hk h1
    by_cases h10 : n < 10
    · simp only [natToDigitsAux, if_pos h10, List.length_singleton]
      omega
    · simp only [natToDigitsAux, if_neg h10]
      have hdiv : n / 10 < n := Nat.div_lt_self (by omega) (by omega)
      have hk2 : 2 ≤ k := by
        by_contra hcc
        have hk1 : k = 1 := by omega
        rw [hk1] at hk
        simp at hk
        omega
      have hlt : n / 10 < 10 ^ (k - 1) := by
        rw [Nat.div_lt_iff_lt_mul (by omega)]
        have : 10 ^ (k - 1) * 10 = 10 ^ k := by
          rw [← Nat.pow_succ]
          congr 1
          omega
        omega
      have := ih (n / 10) (k - 1) (by omega) hlt (by omega)
      simp only [List.length_append, List.length_singleton]
      omega

theorem natToDigitChars_length (n k : Nat) (hk : n < 10 ^ k) (h1 : 1 ≤ k) :
    (natToDigitChars n).length ≤ k :=
  natToDigitsAux_length (n + 1) n k (by omega) hk h1

theorem digitsVal_replicate_zero_append (k : Nat) (ds : List Char) :
    digitsVal (List.replicate k '0' ++ ds) = digitsVal ds := by
  induction k with
  | zero => rfl
  | succ k ih =>
    rw [List.replicate_succ, List.cons_append]
    unfold digitsVal at *
    simp only [List.foldl_cons]
    exact ih

theorem digitsVal_append_replicate_zero : ∀ (t : Nat) (ds : List Char),
    digitsVal (ds ++ List.replicate t '0') = digitsVal ds * 10 ^ t := by
  intro t
  induction t with
  | zero => intro ds; simp
  | succ t ih =>
    intro ds
    rw [List.replicate_succ, ← List.singleton_append, ← List.append_assoc, ih,
      digitsVal_append_singleton]
    have : ('0'.toNat - 48) = 0 := by decide
    rw [this]
    ring

theorem takeWhile_digits_append (l1 : List Char) (x : Char) (l2 : List Char)
    (h1 : ∀ c ∈ l1, c.isDigit = true) (hx : x.isDigit = false) :
    (l1 ++ x :: l2).takeWhile Char.isDigit = l1
    ∧ (l1 ++ x :: l2).dropWhile Char.isDigit = x :: l2 := by
  induction l1 with
  | nil =>
    simp only [List.nil_append]
    constructor
    · exact List.takeWhile_cons_of_neg (by simp [hx])
    · exact List.dropWhile_cons_of_neg (by simp [hx])
  | cons a t ih =>
    have ha : a.isDigit = true := h1 a (by simp)
    obtain ⟨iht, ihd⟩ := ih (fun c hc => h1 c (by simp [hc]))
    constructor
    · rw [List.cons_append, List.takeWhile_cons_of_pos ha, iht]
    · rw [List.cons_append, List.dropWhile_cons_of_pos ha, ihd]

theorem parseUDec_canonical (ds frac : List Char)
    (hds : ∀ c ∈ ds, c.isDigit = true) (hne : ds ≠ [])
    (hfrac : ∀ c ∈ frac, c.isDigit = true) (hfne : frac ≠ []) :
    parseUDec (ds ++ '.' :: frac)
      = some ((digitsVal ds : ℚ) + (digitsVal frac : ℚ) / 10 ^ frac.length) := by
  obtain ⟨ht, hd⟩ := takeWhile_digits_append ds '.' frac hds (by decide)
  have hcond : (decide ('.' = '.') && frac.all Char.isDigit && !(ds.isEmpty && frac.isEmpty))
      = true := by
    have h1 : frac.all Char.isDigit = true := List.all_eq_true.mpr hfrac
    have h2 : ds.isEmpty = false := by
      cases ds with
      | nil => exact absurd rfl hne
      | cons a t => rfl
    rw [h1, h2]
    rfl
  have hred : parseUDec (ds ++ '.' :: frac)
      = if (decide ('.' = '.') && frac.all Char.isDigit && !(ds.isEmpty && frac.isEmpty))
            = true then
          some ((digitsVal ds : ℚ) + (digitsVal frac : ℚ) / 10 ^ frac.length)
        else none := by
    unfold parseUDec
    rw [ht, hd]
  rw [hred, if_pos hcond]

theorem parseDec_of_head_digit (s : String) (c : Char) (rest : List Char)
    (hs : s.toList = c :: rest) (hc : c.isDigit = true) :
    parseDec s = parseUDec (c :: rest) := by
  unfold parseDec
  rw [hs]
  split
  · rename_i r heq
    injection heq with e1 e2
    rw [e1] at hc
    exact absurd hc (by decide)
  · rename_i r heq
    injection heq with e1 e2
    rw [e1] at hc
    exact absurd hc (by decide)
  · rfl

theorem parseDec_neg_head (s : String) (rest : List Char)
    (hs : s.toList = '-' :: rest) :
    parseDec s = (parseUDec rest).map (fun q => -q) := by
  unfold parseDec
  rw [hs]
  rfl

theorem toList_append (s t : String) : (s ++ t).toList = s.toList ++ t.toList := rfl

theorem toList_mk (l : List Char) : (String.mk l).toList = l := rfl

theorem toList_dash : ("-" : String).toList = ['-'] := rfl

theorem toList_dot : ("." : String).toList = ['.'] := rfl

theorem toList_dot0 : (".0" : String).toList = ['.', '0'] := rfl

theorem toList_empty : ("" : String).toList = [] := rfl

theorem mem_takeWhile_pred {p : Char → Bool} :
    ∀ {l : List Char} {c : Char}, c ∈ l.takeWhile p → p c = true := by
  intro l
  induction l with
  | nil => intro c hc; simp [List.takeWhile] at hc
  | cons a t ih =>
    intro c hc
    by_cases ha : p a = true
    · rw [List.takeWhile_cons_of_pos ha] at hc
      rcases List.mem_cons.mp hc with h | h
      · rwa [h]
      · exact ih h
    · rw [List.takeWhile_cons_of_neg (by simpa using ha)] at hc
      simp at hc

theorem strip_split (l : List Char) :
    l = (l.reverse.dropWhile (fun c => c = '0')).reverse
        ++ List.replicate (l.reverse.takeWhile (fun c => c = '0')).length '0' := by
  conv_lhs =>
    rw [← l.reverse_reverse,
      ← List.takeWhile_append_dropWhile (fun c => c = '0') l.reverse]
  rw [List.reverse_append]
  congr 1
  have hrep : l.reverse.takeWhile (fun c => c = '0')
      = List.replicate (l.reverse.takeWhile (fun c => c = '0')).length '0' := by
    apply List.eq_replicate_of_mem
    intro c hc
    have := mem_takeWhile_pred hc
    simpa using this
  rw [hrep]
  simp [List.reverse_replicate]

theorem mem_of_mem_strip (l : List Char) (c : Char)
    (hc : c ∈ (l.reverse.dropWhile (fun c => c = '0')).reverse) : c ∈ l := by
  rw [List.mem_reverse] at hc
  have hsub : List.Sublist (l.reverse.dropWhile (fun c => c = '0')) l.reverse :=
    (List.dropWhile_suffix _).sublist
  exact List.mem_reverse.mp (hsub.subset hc)

theorem parseUDec_int_frac (frac2 : List Char) (m P : ℕ)
    (hall : ∀ c ∈ frac2, c.isDigit = true)
    (hfne : frac2 ≠ [])
    (hlen : frac2.length ≤ P)
    (hval : digitsVal frac2 * 10 ^ (P - frac2.length) = m % 10 ^ P) :
    parseUDec (natToDigitChars (m / 10 ^ P) ++ '.' :: frac2)
      = some ((m : ℚ) / 10 ^ P) := by
  rw [parseUDec_canonical _ _ (fun c hc => (natToDigitChars_props _ c hc).1)
      (natToDigitChars_ne_nil _) hall hfne]
  congr 1
  rw [digitsVal_natToDigitChars]
  have hLt : frac2.length + (P - frac2.length) = P := by omega
  have key : ((m / 10 ^ P : ℕ) : ℚ) * 10 ^ P
      + (digitsVal frac2 : ℚ) * 10 ^ (P - frac2.length) = m := by
    have hN : (m / 10 ^ P) * 10 ^ P + digitsVal frac2 * 10 ^ (P - frac2.length)
        = m := by
      rw [hval, Nat.mul_comm (m / 10 ^ P) (10 ^ P)]
      exact Nat.div_add_mod m (10 ^ P)
    exact_mod_cast hN
  have hne : (10:ℚ) ^ P ≠ 0 := by positivity
  have hsplit : (10:ℚ) ^ P = 10 ^ frac2.length * 10 ^ (P - frac2.length) := by
    rw [← pow_add, hLt]
  rw [eq_div_iff hne]
  have expand : (((m / 10 ^ P : ℕ) : ℚ)
        + (digitsVal frac2 : ℚ) / 10 ^ frac2.length) * 10 ^ P
      = ((m / 10 ^ P : ℕ) : ℚ) * 10 ^ P
        + (digitsVal frac2 : ℚ) * 10 ^ (P - frac2.length) := by
    rw [hsplit]
    have hneL : (10:ℚ) ^ frac2.length ≠ 0 := by positivity
    field_simp
    ring
  rw [expand, key]

theorem parse_serRounded_nonpos (z p : ℤ) (hp : p ≤ 0) :
    parseDec (serRounded z p) = some ((z : ℚ) / (10 : ℚ) ^ p) := by
  have hser : serRounded z p
      = (if z * (10 : ℤ) ^ (-p).toNat < 0 then "-" else "")
        ++ ⟨natToDigitChars (z * (10 : ℤ) ^ (-p).toNat).natAbs⟩ ++ ".0" := by
    unfold serRounded
    rw [if_pos hp]
  have h1 : ((-p).toNat : ℤ) = -p := Int.toNat_of_nonneg (by omega)
  have hqn : (((z * (10 : ℤ) ^ (-p).toNat) : ℤ) : ℚ) = (z : ℚ) / (10 : ℚ) ^ p := by
    have hne : ((10 : ℚ) ^ p) ≠ 0 := zpow_ne_zero p (by norm_num)
    rw [eq_div_iff hne]
    push_cast
    rw [mul_assoc, ← zpow_natCast (10:ℚ) ((-p).toNat), ← zpow_add₀
        (by norm_num : (10:ℚ) ≠ 0), h1]
    simp
  have hd0 : digitsVal ['0'] = 0 := by decide
  by_cases hneg : z * (10 : ℤ) ^ (-p).toNat < 0
  · have htl : (serRounded z p).toList
        = '-' :: (natToDigitChars (z * (10 : ℤ) ^ (-p).toNat).natAbs
            ++ '.' :: ['0']) := by
      rw [hser, if_pos hneg]
      simp only [toList_append, toList_mk, toList_dash, toList_dot0,
        List.append_assoc, List.cons_append, List.nil_append]
    rw [parseDec_neg_head _ _ htl,
      parseUDec_canonical _ _ (fun c hc => (natToDigitChars_props _ c hc).1)
        (natToDigitChars_ne_nil _) (by decide) (by decide)]
    rw [digitsVal_natToDigitChars, Option.map_some']
    congr 1
    have habs : (((z * (10 : ℤ) ^ (-p).toNat).natAbs : ℕ) : ℚ)
        = -(((z * (10 : ℤ) ^ (-p).toNat) : ℤ) : ℚ) := by
      rw [Int.cast_natAbs]
      exact_mod_cast abs_of_neg hneg
    rw [hd0]
    simp only [Nat.cast_zero, zero_div, add_zero]
    rw [habs, neg_neg]
    exact hqn
  · obtain ⟨c, ds', hD⟩ : ∃ c ds',
        natToDigitChars (z * (10 : ℤ) ^ (-p).toNat).natAbs = c :: ds' := by
      cases hE : natToDigitChars (z * (10 : ℤ) ^ (-p).toNat).natAbs with
      | nil => exact absurd hE (natToDigitChars_ne_nil _)
      | cons c ds' => exact ⟨c, ds', rfl⟩
    have hcdig : c.isDigit = true :=
      (natToDigitChars_props _ c (by rw [hD]; exact List.mem_cons_self _ _)).1
    have htl : (serRounded z p).toList = c :: (ds' ++ '.' :: ['0']) := by
      rw [hser, if_neg hneg]
      simp only [toList_append, toList_mk, toList_empty, toList_dot0,
        List.append_assoc, List.cons_append, List.nil_append]
      rw [hD, List.cons_append]
    rw [parseDec_of_head_digit _ _ _ htl hcdig, ← List.cons_append, ← hD,
      parseUDec_canonical _ _ (fun c hc => (natToDigitChars_props _ c hc).1)
        (natToDigitChars_ne_nil _) (by decide) (by decide)]
    rw [digitsVal_natToDigitChars]
    congr 1
    have habs : (((z * (10 : ℤ) ^ (-p).toNat).natAbs : ℕ) : ℚ)
        = (((z * (10 : ℤ) ^ (-p).toNat) : ℤ) : ℚ) := by
      rw [Int.cast_natAbs]
      exact_mod_cast abs_of_nonneg (not_lt.mp hneg)
    rw [hd0]
    simp only [Nat.cast_zero, zero_div, add_zero]
    rw [habs]
    exact hqn

theorem parse_serRounded_pos (z p : ℤ) (hp : 0 < p) :
    parseDec (serRounded z p) = some ((z : ℚ) / (10 : ℚ) ^ p) := by
  have hp' : ¬ p ≤ 0 := by omega
  have hP1 : 1 ≤ p.toNat := by omega
  set P := p.toNat with hPdef
  set mAbs := z.natAbs with hmdef
  set ds := natToDigitChars (mAbs % 10 ^ P) with hdsdef
  set frac0 := List.replicate (P - ds.length) '0' ++ ds with hfrac0def
  set frac1 := (frac0.reverse.dropWhile (fun c => c = '0')).reverse with hfrac1def
  set frac2 := (if frac1.isEmpty then ['0'] else frac1) with hfrac2def
  set ip := mAbs / 10 ^ P with hipdef
  have hser : serRounded z p
      = (if z < 0 then "-" else "") ++ ⟨natToDigitChars ip⟩ ++ "." ++ ⟨frac2⟩ := by
    rw [hfrac2def, hfrac1def, hfrac0def, hdsdef, hipdef, hmdef, hPdef]
    unfold serRounded
    rw [if_neg hp']
  have hfrac0digits : ∀ c ∈ frac0, c.isDigit = true := by
    intro c hc
    rw [hfrac0def, List.mem_append] at hc
    rcases hc with h | h
    · rw [List.eq_of_mem_replicate h]
      decide
    · rw [hdsdef] at h
      exact (natToDigitChars_props _ c h).1
  have h10P : 0 < 10 ^ P := pow_pos (by norm_num) P
  have hdsle : ds.length ≤ P := by
    rw [hdsdef]
    exact natToDigitChars_length _ P (Nat.mod_lt _ h10P) hP1
  have hlen0 : frac0.length = P := by
    rw [hfrac0def, List.length_append, List.length_replicate]
    omega
  have hval0 : digitsVal frac0 = mAbs % 10 ^ P := by
    rw [hfrac0def, digitsVal_replicate_zero_append, hdsdef,
      digitsVal_natToDigitChars]
  have hsplit : frac0 = frac1 ++ List.replicate
      (frac0.reverse.takeWhile (fun c => c = '0')).length '0' := by
    rw [hfrac1def]
    exact strip_split frac0
  set t := (frac0.reverse.takeWhile (fun c => c = '0')).length with htdef
  have hlen1 : frac1.length + t = P := by
    have hl := congrArg List.length hsplit
    rw [hlen0, List.length_append, List.length_replicate] at hl
    exact hl.symm
  have hval1 : digitsVal frac1 * 10 ^ t = mAbs % 10 ^ P := by
    rw [← hval0, hsplit, digitsVal_append_replicate_zero]
  have hfrac2all : ∀ c ∈ frac2, c.isDigit = true := by
    intro c hc
    rw [hfrac2def] at hc
    by_cases h1 : frac1.isEmpty
    · rw [if_pos h1] at hc
      simp at hc
      rw [hc]
      decide
    · rw [if_neg h1] at hc
      apply hfrac0digits
      rw [hfrac1def] at hc
      exact mem_of_mem_strip frac0 c hc
  have hfrac2ne : frac2 ≠ [] := by
    rw [hfrac2def]
    by_cases h1 : frac1.isEmpty
    · rw [if_pos h1]
      simp
    · rw [if_neg h1]
      intro hnil
      exact h1 (by rw [hnil]; rfl)
  have hfrac2len : frac2.length ≤ P := by
    rw [hfrac2def]
    by_cases h1 : frac1.isEmpty
    · rw [if_pos h1]
      simpa using hP1
    · rw [if_neg h1]
      omega
  have hfrac2val : digitsVal frac2 * 10 ^ (P - frac2.length) = mAbs % 10 ^ P := by
    by_cases h1 : frac1.isEmpty
    · have hf1 : frac1 = [] := by
        cases hE : frac1 with
        | nil => rfl
        | cons a l => rw [hE] at h1; exact absurd h1 (by simp)
      have hm0 : mAbs % 10 ^ P = 0 := by
        rw [← hval1, hf1]
        simp [digitsVal]
      have hd0 : digitsVal ['0'] = 0 := by decide
      rw [hfrac2def, if_pos h1, hd0, hm0]
      simp
    · rw [hfrac2def, if_neg h1]
      have ht' : P - frac1.length = t := by omega
      rw [ht']
      exact hval1
  have hPz : ((P : ℕ) : ℤ) = p := by
    rw [hPdef]
    exact Int.toNat_of_nonneg hp.le
  have hpp : (10:ℚ) ^ p = (10:ℚ) ^ (P : ℕ) := by
    rw [← hPz, zpow_natCast]
  by_cases hz : z < 0
  · have htl : (serRounded z p).toList
        = '-' :: (natToDigitChars ip ++ '.' :: frac2) := by
      rw [hser, if_pos hz]
      simp only [toList_append, toList_mk, toList_dash, toList_dot,
        List.append_assoc, List.cons_append, List.nil_append]
    rw [parseDec_neg_head _ _ htl, hipdef,
      parseUDec_int_frac frac2 mAbs P hfrac2all hfrac2ne hfrac2len hfrac2val,
      Option.map_some']
    congr 1
    have habs : ((mAbs : ℕ) : ℚ) = -((z : ℤ) : ℚ) := by
      rw [hmdef, Int.cast_natAbs]
      exact_mod_cast abs_of_neg hz
    rw [habs, hpp]
    ring
  · obtain ⟨c, ds', hD⟩ : ∃ c ds', natToDigitChars ip = c :: ds' := by
      cases hE : natToDigitChars ip with
      | nil => exact absurd hE (natToDigitChars_ne_nil _)
      | cons c ds' => exact ⟨c, ds', rfl⟩
    have hcdig : c.isDigit = true :=
      (natToDigitChars_props _ c (by rw [hD]; exact List.mem_cons_self _ _)).1
    have htl : (serRounded z p).toList = c :: (ds' ++ '.' :: frac2) := by
      rw [hser, if_neg hz]
      simp only [toList_append, toList_mk, toList_empty, toList_dot,
        List.append_assoc, List.cons_append, List.nil_append]
      rw [hD, List.cons_append]
    rw [parseDec_of_head_digit _ _ _ htl hcdig, ← List.cons_append, ← hD, hipdef,
      parseUDec_int_frac frac2 mAbs P hfrac2all hfrac2ne hfrac2len hfrac2val]
    congr 1
    have habs : ((mAbs : ℕ) : ℚ) = ((z : ℤ) : ℚ) := by
      rw [hmdef, Int.cast_natAbs]
      exact_mod_cast abs_of_nonneg (not_lt.mp hz)
    rw [habs, hpp]

theorem parse_serRounded (z p : ℤ) :
    parseDec (serRounded z p) = some ((z : ℚ) / (10 : ℚ) ^ p) := by
  by_cases hp : p ≤ 0
  · exact parse_serRounded_nonpos z p hp
  · exact parse_serRounded_pos z p (by omega)

theorem dropWhile_eq_self_of (p : Char → Bool) (l : List Char)
    (h : ∀ c ∈ l, p c = false) : l.dropWhile p = l := by
  cases l with
  | nil => rfl
  | cons a t => exact List.dropWhile_cons_of_neg (by simp [h a (by simp)])

theorem pyStrip_eq_self (s : String) (h : ∀ c ∈ s.toList, c.isWhitespace = false) :
    pyStrip s = s := by
  unfold pyStrip
  rw [dropWhile_eq_self_of _ _ h,
    dropWhile_eq_self_of _ _ (fun c hc => h c (List.mem_reverse.mp hc)),
    List.reverse_reverse]
  rfl

theorem serRounded_no_ws (z p : ℤ) :
    ∀ c ∈ (serRounded z p).toList, c.isWhitespace = false := by
  intro c hc
  by_cases hp : p ≤ 0
  · have hser : serRounded z p
        = (if z * (10 : ℤ) ^ (-p).toNat < 0 then "-" else "")
          ++ ⟨natToDigitChars (z * (10 : ℤ) ^ (-p).toNat).natAbs⟩ ++ ".0" := by
      unfold serRounded
      rw [if_pos hp]
    rw [hser] at hc
    by_cases hneg : z * (10 : ℤ) ^ (-p).toNat < 0
    · rw [if_pos hneg] at hc
      simp only [toList_append, toList_mk, toList_dash, toList_dot0,
        List.mem_append, List.mem_cons, List.not_mem_nil, or_false] at hc
      rcases hc with (h | h) | h | h
      · rw [h]; decide
      · exact (natToDigitChars_props _ c h).2
      · rw [h]; decide
      · rw [h]; decide
    · rw [if_neg hneg] at hc
      simp only [toList_append, toList_mk, toList_empty, toList_dot0,
        List.mem_append, List.mem_cons, List.not_mem_nil, or_false,
        List.nil_append] at hc
      rcases hc with h | h | h
      · exact (natToDigitChars_props _ c h).2
      · rw [h]; decide
      · rw [h]; decide
  · set P := p.toNat with hPdef
    set mAbs := z.natAbs with hmdef
    set ds := natToDigitChars (mAbs % 10 ^ P) with hdsdef
    set frac0 := List.replicate (P - ds.length) '0' ++ ds with hfrac0def
    set frac1 := (frac0.reverse.dropWhile (fun c => c = '0')).reverse with hfrac1def
    set frac2 := (if frac1.isEmpty then ['0'] else frac1) with hfrac2def
    set ip := mAbs / 10 ^ P with hipdef
    have hser : serRounded z p
        = (if z < 0 then "-" else "") ++ ⟨natToDigitChars ip⟩ ++ "." ++ ⟨frac2⟩ := by
      rw [hfrac2def, hfrac1def, hfrac0def, hdsdef, hipdef, hmdef, hPdef]
      unfold serRounded
      rw [if_neg hp]
    have hfrac0ws : ∀ a ∈ frac0, a.isWhitespace = false := by
      intro a ha
      rw [hfrac0def, List.mem_append] at ha
      rcases ha with h | h
      · rw [List.eq_of_mem_replicate h]
        decide
      · rw [hdsdef] at h
        exact (natToDigitChars_props _ a h).2
    have hfrac2ws : ∀ a ∈ frac2, a.isWhitespace = false := by
      intro a ha
      rw [hfrac2def] at ha
      by_cases h1 : frac1.isEmpty
      · rw [if_pos h1] at ha
        simp at ha
        rw [ha]
        decide
      · rw [if_neg h1] at ha
        rw [hfrac1def] at ha
        exact hfrac0ws a (mem_of_mem_strip frac0 a ha)
    rw [hser] at hc
    by_cases hz : z < 0
    · rw [if_pos hz] at hc
      simp only [toList_append, toList_mk, toList_dash, toList_dot,
        List.mem_append, List.mem_cons, List.not_mem_nil, or_false] at hc
      rcases hc with ((h | h) | h) | h
      · rw [h]; decide
      · exact (natToDigitChars_props _ c h).2
      · rw [h]; decide
      · exact hfrac2ws c h
    · rw [if_neg hz] at hc
      simp only [toList_append, toList_mk, toList_empty, toList_dot,
        List.mem_append, List.mem_cons, List.not_mem_nil, or_false,
        List.nil_append] at hc
      rcases hc with (h | h) | h
      · exact (natToDigitChars_props _ c h).2
      · rw [h]; decide
      · exact hfrac2ws c h

theorem pyStrip_serRounded (z p : ℤ) :
    pyStrip (serRounded z p) = serRounded z p :=
  pyStrip_eq_self _ (serRounded_no_ws z p)

theorem dropWhile_dropWhile (p : Char → Bool) (l : List Char) :
    (l.dropWhile p).dropWhile p = l.dropWhile p := by
  induction l with
  | nil => rfl
  | cons a l ih =>
    by_cases ha : p a = true
    · rw [List.dropWhile_cons_of_pos ha]
      exact ih
    · rw [List.dropWhile_cons_of_neg (by simp [ha]),
        List.dropWhile_cons_of_neg (by simp [ha])]

theorem dropWhile_prefix_self (p : Char → Bool) (y rest : List Char)
    (h : (y ++ rest).dropWhile p = y ++ rest) :
    y.dropWhile p = y := by
  cases y with
  | nil => rfl
  | cons a t =>
    rw [List.cons_append] at h
    by_cases ha : p a = true
    · rw [List.dropWhile_cons_of_pos ha] at h
      have hlen := congrArg List.length h
      have hle := ((List.dropWhile_suffix p
        (l := t ++ rest)).sublist).length_le
      rw [List.length_cons] at hlen
      omega
    · rw [List.dropWhile_cons_of_neg (by simp [ha])]

theorem pyStrip_idem (s : String) : pyStrip (pyStrip s) = pyStrip s := by
  have hA : (s.toList.dropWhile Char.isWhitespace).dropWhile Char.isWhitespace
      = s.toList.dropWhile Char.isWhitespace := dropWhile_dropWhile _ _
  set A := s.toList.dropWhile Char.isWhitespace with hAdef
  set B := (A.reverse.dropWhile Char.isWhitespace).reverse with hBdef
  have hsplitA : A = B ++ (A.reverse.takeWhile Char.isWhitespace).reverse := by
    rw [hBdef]
    conv_lhs => rw [← A.reverse_reverse,
      ← List.takeWhile_append_dropWhile Char.isWhitespace A.reverse]
    rw [List.reverse_append]
  have hB1 : B.dropWhile Char.isWhitespace = B := by
    apply dropWhile_prefix_self Char.isWhitespace B
      (A.reverse.takeWhile Char.isWhitespace).reverse
    rw [← hsplitA]
    exact hA
  have hB2 : B.reverse.dropWhile Char.isWhitespace = B.reverse := by
    rw [hBdef, List.reverse_reverse]
    exact dropWhile_dropWhile _ _
  have hps : pyStrip s = ⟨B⟩ := rfl
  rw [hps]
  unfold pyStrip
  rw [toList_mk, hB1, hB2, List.reverse_reverse]

theorem rqHalfEven_intCast (n : ℤ) : rqHalfEven (n : ℚ) = n := by
  unfold rqHalfEven
  rw [Int.floor_intCast]
  norm_num

theorem rqHalfEven_abs (x : ℚ) : |(rqHalfEven x : ℚ) - x| ≤ 1/2 := by
  have h0 : (⌊x⌋ : ℚ) ≤ x := Int.floor_le x
  have h1 : x < ⌊x⌋ + 1 := Int.lt_floor_add_one x
  unfold rqHalfEven
  split_ifs with hlt hgt heven <;>
    (push_cast; rw [abs_le]; exact ⟨by linarith, by linarith⟩)

theorem pyRound_close (v : ℚ) (p : ℤ) :
    |pyRound v p - v| < (10 : ℚ) ^ (-p) := by
  have h10 : (0:ℚ) < (10:ℚ) ^ p := zpow_pos (by norm_num) p
  have key := rqHalfEven_abs (v * 10 ^ p)
  unfold pyRound
  have hx : (rqHalfEven (v * 10 ^ p) : ℚ) / 10 ^ p - v
      = ((rqHalfEven (v * 10 ^ p) : ℚ) - v * 10 ^ p) / 10 ^ p := by
    field_simp
    ring
  rw [hx, abs_div, abs_of_pos h10]
  calc |(rqHalfEven (v * 10 ^ p) : ℚ) - v * 10 ^ p| / (10:ℚ) ^ p
      ≤ (1/2) / (10:ℚ) ^ p := (div_le_div_right h10).mpr key
    _ < (10:ℚ) ^ (-p) := by
        rw [zpow_neg, div_lt_iff h10, inv_mul_cancel₀ (ne_of_gt h10)]
        norm_num

theorem roundField_none (p : ℤ) (c : String)
    (h : parseDec (pyStrip c) = none) : roundField p c = pyStrip c := by
  unfold roundField
  rw [h]

theorem roundField_some (p : ℤ) (c : String) (v : ℚ)
    (h : parseDec (pyStrip c) = some v) :
    roundField p c = serRounded (rqHalfEven (v * 10 ^ p)) p := by
  unfold roundField
  rw [h]

theorem roundField_idem (p : ℤ) (c : String) :
    roundField p (roundField p c) = roundField p c := by
  cases hp : parseDec (pyStrip c) with
  | none =>
    rw [roundField_none p c hp,
      roundField_none p (pyStrip c) (by rw [pyStrip_idem]; exact hp)]
    exact pyStrip_idem c
  | some v =>
    rw [roundField_some p c v hp,
      roundField_some p _ ((rqHalfEven (v * 10 ^ p) : ℚ) / 10 ^ p)
        (by rw [pyStrip_serRounded, parse_serRounded])]
    have harg : rqHalfEven ((rqHalfEven (v * 10 ^ p) : ℚ) / 10 ^ p * 10 ^ p)
        = rqHalfEven (v * 10 ^ p) := by
      rw [div_mul_cancel₀ _ (zpow_ne_zero p (by norm_num : (10:ℚ) ≠ 0)),
        rqHalfEven_intCast]
    rw [harg]

/-- **C8**: text-level lossy rounding.  (1) Applying `apply_lossy_rounding`
a second time at the same precision leaves every chunk of the text unchanged
(idempotence).  (2) For every coordinate field `c` that parses to the value
`v`, the rewritten field parses to `round(v, p)`, which lies strictly within
`10 ^ (-p)` of `v`. -/
theorem apply_lossy_rounding_spec (p : ℤ) :
    (∀ raw : List Chunk,
      apply_lossy_rounding (apply_lossy_rounding raw p) p
        = apply_lossy_rounding raw p)
    ∧ ∀ (c : String) (v : ℚ), parseDec (pyStrip c) = some v →
        parseDec (pyStrip (roundField p c)) = some (pyRound v p)
        ∧ |pyRound v p - v| < (10 : ℚ) ^ (-p) := by
  constructor
  · intro raw
    unfold apply_lossy_rounding
    rw [List.map_map]
    apply List.map_congr_left
    intro ch _
    cases ch with
    | plain s => rfl
    | point fs =>
      show Chunk.point ((fs.map (roundField p)).map (roundField p))
          = Chunk.point (fs.map (roundField p))
      rw [List.map_map]
      congr 1
      apply List.map_congr_left
      intro f _
      exact roundField_idem p f
  · intro c v h
    refine ⟨?_, pyRound_close v p⟩
    rw [roundField_some p c v h, pyStrip_serRounded, parse_serRounded]
    rfl

theorem apply_lossy_rounding_spec_witness :
    parseDec (pyStrip "15") = some 15
    ∧ (apply_lossy_rounding (apply_lossy_rounding [Chunk.point ["15"]] 0) 0
        = apply_lossy_rounding [Chunk.point ["15"]] 0
      ∧ parseDec (pyStrip (roundField 0 "15")) = some (pyRound 15 0)
      ∧ |pyRound 15 0 - 15| < (10 : ℚ) ^ (-(0:ℤ))) :=
  ⟨by decide,
    (apply_lossy_rounding_spec 0).1 [Chunk.point ["15"]],
    ((apply_lossy_rounding_spec 0).2 "15" 15 (by decide)).1,
    ((apply_lossy_rounding_spec 0).2 "15" 15 (by decide)).2⟩

theorem passStep_keys (f : Bool) (k : String) (p : Model → Model × Nat)
    (acc : Model × Stats) :
    (passStep f k p acc).2.map Prod.fst
      = acc.2.map Prod.fst ++ (if f then [k] else []) := by
  unfold passStep
  cases f <;> simp

theorem runPasses_keys (opts : Options) (vol : Nat → VolRes) (m : Model)
    (r : Model × Stats) (h : runPasses opts vol m = .ok r) :
    r.2.map Prod.fst = enabledStatKeys opts := by
  cases hdash : opts.remove_dash_props with
  | false =>
    unfold runPasses at h
    dsimp only at h
    rw [hdash] at h
    simp only [Bool.false_eq_true, if_false] at h
    repeat' (split at h)
    all_goals first
      | exact Except.noConfusion h
      | (injection h with h1
         rw [← h1]
         clear h1
         simp [passStep_keys, enabledStatKeys, hdash, *])
  | true =>
    unfold runPasses at h
    dsimp only at h
    rw [hdash] at h
    rw [if_pos rfl] at h
    cases hrp : remove_placeholder_properties
        (passStep opts.dedupe_classifications "dup_class"
          (fun mm => model_level_dedupe mm "IfcClassificationReference")
          (passStep opts.dedupe_property_sets "dup_psets"
            (fun mm => model_level_dedupe mm "IfcPropertySet")
            (passStep opts.merge_cartesian "merged_points"
              merge_cartesian_points (m, ([] : Stats))))).1 "-" with
    | error e =>
      rw [hrp] at h
      dsimp only at h
      exact Except.noConfusion h
    | ok rp =>
      rw [hrp] at h
      dsimp only at h
      repeat' (split at h)
      all_goals first
        | exact Except.noConfusion h
        | (injection h with h1
           rw [← h1]
           clear h1
           simp [passStep_keys, enabledStatKeys, hdash, *])

theorem optimizeBody_ok (opts : Options) (ext : Ext)
    (ip op : String) (input : List Chunk) (fs : FState)
    (stats : Stats) (fs' : FState)
    (h : optimizeBody opts ext ip op input fs = .ok (stats, fs')) :
    ∃ (m : Model) (r : Model × Stats),
      runPasses opts ext.vol m = .ok r ∧ stats = r.2 := by
  unfold optimizeBody at h
  dsimp only at h
  repeat' (split at h)
  all_goals first
    | exact Except.noConfusion h
    | (injection h with h1; injection h1 with h2 h3;
       exact ⟨_, _, by assumption, h2.symm⟩)

theorem runPasses_noOptions (vol : Nat → VolRes) (m : Model) :
    runPasses noOptions vol m = .ok (m, []) := rfl

/-- **C9**: the stats map of `optimize_ifc` has exactly one entry per
enabled operation — its fixed stat key, in dispatch order; the counts are
non-negative integers by construction (`Nat`).  Disabled or absent keys
contribute no entry and no pass, so a run with no keys enabled returns an
empty stats map and writes the loaded graph back entirely unchanged,
touching no other file. -/
theorem optimize_ifc_stats_spec (opts : Options) (ext : Ext)
    (ip op : String) (input : List Chunk) (fs : FState) :
    (∀ stats, (optimize_ifc opts ext ip op input fs).1 = Except.ok stats →
      stats.map Prod.fst = enabledStatKeys opts)
    ∧ ∀ model, ext.load input = Except.ok model →
        ext.writeOk model = Except.ok () →
        optimize_ifc noOptions ext ip op input fs
          = (Except.ok [], fs.create op (FileData.graph model)) := by
  constructor
  · intro stats hok
    unfold optimize_ifc at hok
    cases hbody : optimizeBody opts ext ip op input fs with
    | error r =>
      rw [hbody] at hok
      dsimp only at hok
      exact Except.noConfusion hok
    | ok r =>
      rw [hbody] at hok
      dsimp only at hok
      injection hok with hr
      obtain ⟨m2, rr, hrun, hs⟩ := optimizeBody_ok opts ext ip op input fs
        r.1 r.2 (by rw [hbody])
      rw [← hr, hs]
      exact runPasses_keys opts ext.vol m2 rr hrun
  · intro model hload hwrite
    unfold optimize_ifc optimizeBody
    dsimp only [noOptions]
    simp only [Bool.false_eq_true, if_false]
    rw [hload]
    dsimp only
    rw [show runPasses ({} : Options) ext.vol model = .ok (model, []) from rfl]
    dsimp only
    rw [hwrite]
    rfl

theorem optimize_ifc_stats_spec_witness :
    ((optimize_ifc metadataOnlyOpts (loadExt ⟨[]⟩) "a.ifc" "b.ifc" [] ⟨[]⟩).1
        = Except.ok [("metadata", 0)]
      ∧ (loadExt (⟨[]⟩ : Model)).load [] = Except.ok (⟨[]⟩ : Model)
      ∧ (loadExt (⟨[]⟩ : Model)).writeOk ⟨[]⟩ = Except.ok ())
    ∧ List.map Prod.fst [("metadata", 0)] = enabledStatKeys metadataOnlyOpts
    ∧ optimize_ifc noOptions (loadExt ⟨[]⟩) "a.ifc" "b.ifc" [] ⟨[]⟩
        = (Except.ok [], FState.create ⟨[]⟩ "b.ifc" (FileData.graph ⟨[]⟩)) :=
  ⟨⟨rfl, rfl, rfl⟩,
   (optimize_ifc_stats_spec metadataOnlyOpts (loadExt ⟨[]⟩) "a.ifc" "b.ifc"
      [] ⟨[]⟩).1 [("metadata", 0)] rfl,
   (optimize_ifc_stats_spec noOptions (loadExt ⟨[]⟩) "a.ifc" "b.ifc"
      [] ⟨[]⟩).2 ⟨[]⟩ rfl rfl⟩

theorem removeFile_not_mem (fs : FState) (t : String) :
    ∀ pr ∈ (fs.removeFile t).files, pr.1 ≠ t := by
  intro pr hpr
  unfold FState.removeFile at hpr
  have := List.mem_filter.mp hpr
  simpa using this.2

theorem foldl_removeFile_subset (ts : List String) :
    ∀ (fs : FState) (pr : String × FileData),
      pr ∈ (ts.foldl (fun acc t => acc.removeFile t) fs).files →
      pr ∈ fs.files := by
  induction ts with
  | nil => intro fs pr h; exact h
  | cons t ts ih =>
    intro fs pr h
    rw [List.foldl_cons] at h
    have h2 := ih (fs.removeFile t) pr h
    unfold FState.removeFile at h2
    exact (List.mem_filter.mp h2).1

theorem foldl_removeFile_absent : ∀ (ts : List String) (t : String),
    t ∈ ts → ∀ (fs : FState) (pr : String × FileData),
      pr ∈ (ts.foldl (fun acc u => acc.removeFile u) fs).files →
      pr.1 ≠ t := by
  intro ts
  induction ts with
  | nil => intro t ht; cases ht
  | cons a ts ih =>
    intro t ht fs pr h
    rw [List.foldl_cons] at h
    rcases List.mem_cons.mp ht with h1 | h1
    · subst h1
      exact removeFile_not_mem _ _ pr (foldl_removeFile_subset ts _ pr h)
    · exact ih t h1 (fs.removeFile a) pr h

/-- **C2** (amended): every fatal error of `optimize_ifc` surfaces as the
single uniform report `"Optimization failed: <cause>"` (line 210 of the
source); temporary files are removed only on the success path — a
successful run leaves no rounding temp file behind, while the failure path
runs no cleanup at all (the counterexample exhibits the leak). -/
theorem optimize_ifc_error_spec (opts : Options) (ext : Ext)
    (ip op : String) (input : List Chunk) (fs : FState) :
    (∀ msg fsE,
      optimize_ifc opts ext ip op input fs = (Except.error msg, fsE) →
      ∃ cause, msg = "Optimization failed: " ++ cause)
    ∧ ∀ (prec : ℤ) stats fs', opts.convert_schema = false →
        opts.lossy_rounding = some prec →
        optimize_ifc opts ext ip op input fs = (Except.ok stats, fs') →
        ∀ pr ∈ fs'.files, pr.1 ≠ ip ++ ".round.ifc" := by
  constructor
  · intro msg fsE h
    unfold optimize_ifc at h
    cases hbody : optimizeBody opts ext ip op input fs with
    | ok r =>
      rw [hbody] at h
      dsimp only at h
      injection h with h1 h2
      exact Except.noConfusion h1
    | error r =>
      rw [hbody] at h
      dsimp only at h
      injection h with h1 h2
      injection h1 with h1
      exact ⟨r.1, h1.symm⟩
  · intro prec stats fs' hconv hlossy h
    unfold optimize_ifc at h
    cases hbody : optimizeBody opts ext ip op input fs with
    | error r =>
      rw [hbody] at h
      dsimp only at h
      injection h with h1 h2
      exact Except.noConfusion h1
    | ok r =>
      rw [hbody] at h
      dsimp only at h
      injection h with h1 h2
      unfold optimizeBody at hbody
      rw [hconv, hlossy] at hbody
      simp only [Bool.false_eq_true, if_false] at hbody
      repeat' (split at hbody)
      all_goals first
        | exact Except.noConfusion hbody
        | (injection hbody with hb
           intro pr hpr
           rw [← h2] at hpr
           rw [← hb] at hpr
           dsimp only at hpr
           exact foldl_removeFile_absent _ _ (by simp) _ pr hpr)

/-- **C2** counterexample: with `{"lossy_rounding": 0}` and a failing
`ifcopenshell.open`, the rounding temp file `in.ifc.round.ifc` is still on
disk after the uniform error is raised — the cleanup loop (source lines
198–199) sits inside the `try:` block after the write, so the failure path
never reaches it. -/
theorem optimize_ifc_tmp_leak_counterexample :
    (optimize_ifc lossyOnlyOpts failExt "in.ifc" "out.ifc" [] ⟨[]⟩).1
      = Except.error "Optimization failed: open failed"
    ∧ (optimize_ifc lossyOnlyOpts failExt "in.ifc" "out.ifc" [] ⟨[]⟩).2
      = ⟨[("in.ifc.round.ifc", FileData.text [])]⟩ :=
  ⟨rfl, rfl⟩

theorem optimize_ifc_error_spec_witness :
    (optimize_ifc lossyOnlyOpts failExt "in.ifc" "out.ifc" [] ⟨[]⟩
        = (Except.error "Optimization failed: open failed",
           ⟨[("in.ifc.round.ifc", FileData.text [])]⟩)
      ∧ lossyOnlyOpts.convert_schema = false
      ∧ lossyOnlyOpts.lossy_rounding = some 0
      ∧ optimize_ifc lossyOnlyOpts (loadExt ⟨[]⟩) "in.ifc" "out.ifc" [] ⟨[]⟩
        = (Except.ok [],
           ⟨[("out.ifc", FileData.graph (⟨[]⟩ : Model))]⟩))
    ∧ (∃ cause,
        "Optimization failed: open failed" = "Optimization failed: " ++ cause)
    ∧ ∀ pr ∈ (⟨[("out.ifc", FileData.graph (⟨[]⟩ : Model))]⟩ : FState).files,
        pr.1 ≠ "in.ifc" ++ ".round.ifc" :=
  ⟨⟨rfl, rfl, rfl, rfl⟩,
   (optimize_ifc_error_spec lossyOnlyOpts failExt "in.ifc" "out.ifc"
      [] ⟨[]⟩).1 "Optimization failed: open failed"
      ⟨[("in.ifc.round.ifc", FileData.text [])]⟩ rfl,
   (optimize_ifc_error_spec lossyOnlyOpts (loadExt ⟨[]⟩) "in.ifc" "out.ifc"
      [] ⟨[]⟩).2 0 [] ⟨[("out.ifc", FileData.graph (⟨[]⟩ : Model))]⟩
      rfl rfl rfl⟩

/-- **C1**: the central no-dangling-references invariant does not survive
the pipeline.  `metaModel` is referentially intact, yet `optimize_ifc` with
only `remove_metadata` enabled writes a graph in which `wallC` still
references owner-history 2 although the pass deleted that record (the
engine's `remove`, per the spec, scrubs no inbound references and the pass
retargets nothing). -/
theorem optimize_ifc_dangling_bug :
    Model.DanglingFree metaModel
    ∧ (optimize_ifc metadataOnlyOpts (loadExt metaModel) "in.ifc" "out.ifc"
        [] ⟨[]⟩).2
      = ⟨[("out.ifc", FileData.graph ⟨[ownerA, wallC]⟩)]⟩
    ∧ ¬ Model.DanglingFree (⟨[ownerA, wallC]⟩ : Model) :=
  ⟨by decide, rfl, by decide⟩

/-- **C3** counterexample: `model_level_dedupe` is not idempotent.  In
`dedupeModel` the first pass merges the two structurally equal sources
(removing one entity) and thereby makes the two referencing classification
references structurally equal, so the second pass removes one more entity
instead of zero. -/
theorem model_level_dedupe_not_idempotent :
    (model_level_dedupe dedupeModel "IfcClassificationReference").2 = 1 ∧
    (model_level_dedupe
      (model_level_dedupe dedupeModel "IfcClassificationReference").1
      "IfcClassificationReference").2 = 1 := by
  constructor <;> decide

end IfcOpt
